import Mathlib

/-!
Verification of the procurement-analyzer backend core.

This file gives a shallow embedding, in Lean 4, of the pure algorithmic core
of the backend: the chunking strategy (`backend/app/services/extraction.py`),
the chunk-merge strategy and its data model (`extraction.py`,
`models/schemas.py`), the LLM gateway retry loop, JSON extraction and JSON
schema cleaning (`backend/app/services/llm.py`), the extract-stage executor
(`extraction.py`), the ephemeral thinking-chunk queue
(`services/pipeline.py`, `services/stream_store.py`) and the progress
derivation (`routers/analyze.py`), together with theorems settling the
specification's claims about those components.

Modelling conventions:
* Python `str` text is modelled as `List Char`; indices are `Nat`.
  Python slices `s[a:b]` (for the non-negative indices that occur in the
  executions reasoned about here) are `(s.drop a).take (b - a)`.
* Python `int(x * 0.70)`-style float arithmetic is modelled by exact
  integer arithmetic (`x * 7 / 10`); the IEEE-754 result can differ from
  the exact one by one unit in rare cases, which does not affect any
  claim settled here.
* Python dicts (with their insertion order) are association lists; dict
  assignment replaces in place or appends a new key at the end.
* Fallible or possibly non-terminating code returns `Option`.
-/

namespace ProcAnalyzer

/-! ### Basic Python text helpers -/

/-- Python slice `content[a:b]` for `0 ≤ a ≤ b` (clamps at the end of the
string like Python does). -/
def pySlice (content : List Char) (a b : Nat) : List Char :=
  (content.drop a).take (b - a)

/-- Characters considered whitespace by Python's `str.strip()` (ASCII part). -/
def pyWS : List Char := [' ', '\t', '\n', '\r', '\x0b', '\x0c']

/-- Python `str.strip()`: drop leading and trailing whitespace. -/
def pyStrip (s : List Char) : List Char :=
  ((s.dropWhile (· ∈ pyWS)).reverse.dropWhile (· ∈ pyWS)).reverse

/-- Does `pat` occur at the head of `l` (with enough characters left)? -/
def prefixAtB (pat l : List Char) : Bool :=
  decide (l.take pat.length = pat)

/-- Worker for `pyRfind`: walks the haystack once, remembering the last
position where the pattern matched. -/
def rfindGo (pat : List Char) : List Char → Nat → Option Nat → Option Nat
  | [], _, best => best
  | c :: rest, i, best =>
      rfindGo pat rest (i + 1) (if prefixAtB pat (c :: rest) then some i else best)

/-- Python `hay.rfind(pat)` for a nonempty pattern: highest index at which
`pat` occurs in `hay`, `none` when absent (Python returns `-1`). -/
def pyRfind (hay pat : List Char) : Option Nat :=
  rfindGo pat hay 0 none

/-- Worker for `pyFind`. -/
def findGo (pat : List Char) : List Char → Nat → Option Nat
  | [], _ => none
  | c :: rest, i =>
      if prefixAtB pat (c :: rest) then some i else findGo pat rest (i + 1)

/-- Python `hay.find(pat)` for a nonempty pattern: lowest index at which
`pat` occurs in `hay`, `none` when absent. -/
def pyFind (hay pat : List Char) : Option Nat :=
  findGo pat hay 0

/-- Python `hay.rfind(pat, a, b)`: search restricted to `hay[a:b]`,
absolute result index. -/
def pyRfindRange (hay pat : List Char) (a b : Nat) : Option Nat :=
  (pyRfind (pySlice hay a b) pat).map (a + ·)

/-- Python `hay.find(pat, a, b)`: search restricted to `hay[a:b]`,
absolute result index. -/
def pyFindRange (hay pat : List Char) (a b : Nat) : Option Nat :=
  (pyFind (pySlice hay a b) pat).map (a + ·)

/-- First character of a list equals `c`. Python `s.startswith(c)` for a
single-character pattern. -/
def headIs (l : List Char) (c : Char) : Bool :=
  match l with
  | [] => false
  | x :: _ => x = c

/-- Last character of a list equals `c`. Python `s.endswith(c)` for a
single-character pattern. -/
def lastIs (l : List Char) (c : Char) : Bool :=
  headIs l.reverse c

/-- Python `s.startswith(pat)` for a general pattern. -/
def startsWithB (pat l : List Char) : Bool :=
  prefixAtB pat l

/-! ### Chunking (`backend/app/services/extraction.py`) -/

/-- `calculate_max_chars` from `extraction.py`.

Formula: `(context - reserved) * chars_per_token * safety_fill` with
`reserved = 37_000`, a floor of `8_000` available tokens, a 70% fill
factor and 4 chars per token.  The source computes
`int(available_tokens * 0.70)` in floating point; this is modelled by the
exact `available_tokens * 7 / 10`. -/
def calculate_max_chars (context_length : Nat) : Nat :=
  let reserved : Nat := 37000
  let available_tokens : Nat := max (context_length - reserved) 8000
  let safe_tokens : Nat := available_tokens * 7 / 10
  safe_tokens * 4

/-- Pattern `"\n## "`. -/
def nlHH : List Char := ['\n', '#', '#', ' ']

/-- Pattern `"\n# "`. -/
def nlH : List Char := ['\n', '#', ' ']

/-- Pattern `"\n\n"`. -/
def nlNl : List Char := ['\n', '\n']

/-- Pattern `"\n"`. -/
def nlOne : List Char := ['\n']

/-- `_inside_table` from `extraction.py`: is position `pos` inside a
markdown table block (a line that starts and ends with `|`)? -/
def insideTable (content : List Char) (pos : Nat) : Bool :=
  let lineStart := (pyRfindRange content nlOne (pos - 200) pos).getD (pos - 200)
  let lineEnd :=
    (pyFindRange content nlOne pos (min content.length (pos + 200))).getD
      (min content.length (pos + 200))
  let line := pyStrip (pySlice content lineStart lineEnd)
  headIs line '|' && lastIs line '|'

/-- One marker attempt inside `_find_structure_break`: position of the last
occurrence of `pat` in the search region, rejected when it falls inside a
markdown table. -/
def markerCand (content : List Char) (searchStart : Nat) (region pat : List Char) :
    Option Nat :=
  match pyRfind region pat with
  | none => none
  | some pos =>
      let candidate := searchStart + pos
      if insideTable content candidate then none else some candidate

/-- `_find_structure_break` from `extraction.py`: best structure-aware break
point within `content[searchStart:searchEnd]`.  Priority: `"\n## "`,
`"\n# "`, double newline, single newline, else hard cut at `searchEnd`. -/
def findStructureBreak (content : List Char) (searchStart searchEnd : Nat) : Nat :=
  let region := pySlice content searchStart searchEnd
  match markerCand content searchStart region nlHH with
  | some c => c
  | none =>
    match markerCand content searchStart region nlH with
    | some c => c
    | none =>
      match markerCand content searchStart region nlNl with
      | some c => c
      | none =>
        match pyRfind region nlOne with
        | some pos => searchStart + pos
        | none => searchEnd

/-- The end index chosen for the chunk beginning at `start` inside
`chunk_text`'s loop: `start + max_chars`, refined by a structure break in
the last 50% of the window whenever the window end is inside the text. -/
def chunkEnd (content : List Char) (maxChars start : Nat) : Nat :=
  let e0 := start + maxChars
  if e0 < content.length then
    findStructureBreak content (start + maxChars / 2) e0
  else e0

/-- Next value of `start` in `chunk_text`'s loop: `end - overlap_chars`. -/
def nextStart (content : List Char) (maxChars overlap start : Nat) : Nat :=
  chunkEnd content maxChars start - overlap

/-- The `while start < len(content)` loop of `chunk_text`, recorded as
`(start, end)` spans.  The loop in the source need not terminate (the
start index need not increase for small `max_chars`), so the embedding
carries fuel and returns `none` when the fuel runs out. -/
def chunkSpansGo (content : List Char) (maxChars overlap : Nat) :
    Nat → Nat → Option (List (Nat × Nat))
  | 0, _ => none
  | fuel + 1, start =>
      if start < content.length then
        let e := chunkEnd content maxChars start
        match chunkSpansGo content maxChars overlap fuel
            (nextStart content maxChars overlap start) with
        | some rest => some ((start, e) :: rest)
        | none => none
      else some []

/-- `chunk_text` from `extraction.py`, with an explicit `max_chars`
argument (the source computes it with `calculate_max_chars` when the
caller passes `None`).  Returns `none` when the source loop would not have
terminated within `content.length + 1` iterations (a terminating run
advances `start` every iteration, so this fuel is never the reason a
terminating run is cut off). -/
def chunk_text (content : List Char) (maxChars : Nat) : Option (List (List Char)) :=
  if content.length ≤ maxChars then some [content]
  else
    let overlap := max (maxChars / 10) 2000
    (chunkSpansGo content maxChars overlap (content.length + 1) 0).map
      (fun spans => spans.map (fun se => pySlice content se.1 se.2))

/-! ### Python values after `model_dump` (`models/schemas.py`) -/

/-- A Python value as produced by `pydantic.BaseModel.model_dump`: `None`,
booleans, numbers (numeric JSON values are modelled as integers), strings,
lists and (insertion-ordered) dicts. -/
inductive PyVal where
  | none : PyVal
  | pybool (b : Bool) : PyVal
  | int (n : Int) : PyVal
  | str (s : String) : PyVal
  | list (xs : List PyVal) : PyVal
  | dict (kvs : List (String × PyVal)) : PyVal

/-- Python `v is None`. -/
def PyVal.isNone : PyVal → Bool
  | .none => true
  | _ => false

/-- Python `isinstance(v, list)`. -/
def PyVal.isList : PyVal → Bool
  | .list _ => true
  | _ => false

/-- A dumped model: an insertion-ordered Python dict. -/
abbrev PyDict := List (String × PyVal)

/-- Python `d.get(k)` with default `None`: the value at the first
occurrence of `k`, `PyVal.none` when the key is absent. -/
def pyGet (d : PyDict) (k : String) : PyVal :=
  match d with
  | [] => PyVal.none
  | kv :: rest => if kv.1 = k then kv.2 else pyGet rest k

/-- Python `d[k] = v`: replace the value at the first occurrence of `k`,
or append the pair at the end when `k` is absent. -/
def pyDictSet (d : PyDict) (k : String) (v : PyVal) : PyDict :=
  match d with
  | [] => [(k, v)]
  | kv :: rest => if kv.1 = k then (k, v) :: rest else kv :: pyDictSet rest k v

/-- Ordering on keys used by `json.dumps(..., sort_keys=True)`, modelled
character by character. -/
def charListLe : List Char → List Char → Bool
  | [], _ => true
  | _ :: _, [] => false
  | a :: as, b :: bs => if a = b then charListLe as bs else decide (a < b)

/-- Key order for `sort_keys=True`. -/
def strLe (a b : String) : Bool :=
  charListLe a.data b.data

/-- Insert a serialized entry into a key-sorted list of serialized entries. -/
def insertSorted (kv : String × List Char) :
    List (String × List Char) → List (String × List Char)
  | [] => [kv]
  | x :: xs => if strLe kv.1 x.1 then kv :: x :: xs else x :: insertSorted kv xs

/-- Sort serialized entries by key (`sort_keys=True`). -/
def sortByKey (l : List (String × List Char)) : List (String × List Char) :=
  l.foldr insertSorted []

/-- Interleave `", "` between rendered items (`json.dumps` default
separators). -/
def commaJoin : List (List Char) → List Char
  | [] => []
  | [x] => x
  | x :: y :: rest => x ++ ',' :: ' ' :: commaJoin (y :: rest)

/-- Render one sorted dict entry as `"key": value`. -/
def renderEntry (kv : String × List Char) : List Char :=
  '"' :: kv.1.data ++ '"' :: ':' :: ' ' :: kv.2

mutual

/-- `json.dumps(v, sort_keys=True, ensure_ascii=False)`, used as the
content key of dict items during merge deduplication.  String escaping is
not modelled (the claims settled here never depend on it). -/
def jsonDumps : PyVal → List Char
  | .none => ['n', 'u', 'l', 'l']
  | .pybool true => ['t', 'r', 'u', 'e']
  | .pybool false => ['f', 'a', 'l', 's', 'e']
  | .int n => (toString n).data
  | .str s => '"' :: s.data ++ ['"']
  | .list xs => '[' :: commaJoin (jsonDumpsL xs) ++ [']']
  | .dict kvs => '{' :: commaJoin ((sortByKey (jsonDumpsKV kvs)).map renderEntry) ++ ['}']

/-- `jsonDumps` mapped over a list. -/
def jsonDumpsL : List PyVal → List (List Char)
  | [] => []
  | v :: vs => jsonDumps v :: jsonDumpsL vs

/-- `jsonDumps` mapped over dict values. -/
def jsonDumpsKV : List (String × PyVal) → List (String × List Char)
  | [] => []
  | kv :: rest => (kv.1, jsonDumps kv.2) :: jsonDumpsKV rest

end

mutual

/-- Python `repr(v)` for values appearing inside containers (strings are
quoted; quote escaping inside strings is not modelled). -/
def pyRepr : PyVal → List Char
  | .none => ['N', 'o', 'n', 'e']
  | .pybool true => ['T', 'r', 'u', 'e']
  | .pybool false => ['F', 'a', 'l', 's', 'e']
  | .int n => (toString n).data
  | .str s => '\'' :: s.data ++ ['\'']
  | .list xs => '[' :: commaJoin (pyReprL xs) ++ [']']
  | .dict kvs => '{' :: commaJoin (pyReprKV kvs) ++ ['}']

/-- `pyRepr` mapped over a list. -/
def pyReprL : List PyVal → List (List Char)
  | [] => []
  | v :: vs => pyRepr v :: pyReprL vs

/-- Rendered dict entries for `pyRepr`. -/
def pyReprKV : List (String × PyVal) → List (List Char)
  | [] => []
  | kv :: rest => ('\'' :: kv.1.data ++ '\'' :: ':' :: ' ' :: pyRepr kv.2) :: pyReprKV rest

end

/-- Python `str(v)`: like `repr` except that a top-level string is
returned as is. -/
def pyStr : PyVal → List Char
  | .str s => s.data
  | v => pyRepr v

/-- The deduplication key of a list item in `merge_chunk_extractions`:
dict items use `json.dumps(item, sort_keys=True, ensure_ascii=False,
default=str)`, every other item uses `str(item)`. -/
def itemKey (v : PyVal) : List Char :=
  match v with
  | .dict _ => jsonDumps v
  | _ => pyStr v

/-- The `seen`-set deduplication loop of `merge_chunk_extractions`:
keep the first item for each content key, preserve order. -/
def dedupGo (seen : List (List Char)) : List PyVal → List PyVal
  | [] => []
  | v :: vs =>
      let k := itemKey v
      if k ∈ seen then dedupGo seen vs else v :: dedupGo (k :: seen) vs

/-- Deduplicate a concatenated list field by content key. -/
def dedupPy (xs : List PyVal) : List PyVal :=
  dedupGo [] xs

/-! ### The `ExtractionResult` model (`models/schemas.py`) -/

/-- The field names of `ExtractionResult`, in declaration order — the key
order of `model_dump()`. -/
def erFields : List String :=
  ["project_title", "project_summary", "procurement_reference", "cpv_codes",
   "nuts_codes", "procuring_organization", "procurement_type",
   "procurement_law", "estimated_value", "financial_terms", "deadlines",
   "key_requirements", "technical_specifications",
   "qualification_requirements", "evaluation_criteria",
   "submission_requirements", "restrictions_and_prohibitions",
   "lot_structure", "special_conditions", "risk_factors",
   "appeal_procedures", "source_documents", "confidence_notes",
   "source_references"]

/-- The list fields named by the `_coerce_list_fields` validator of
`ExtractionResult`, in the validator's order.  These are exactly the
fields declared with type `list[...]` (note `lot_structure` is
`Optional[list[...]]` and is not among them). -/
def listFieldNames : List String :=
  ["confidence_notes", "key_requirements", "restrictions_and_prohibitions",
   "special_conditions", "cpv_codes", "nuts_codes", "source_references",
   "technical_specifications", "evaluation_criteria", "risk_factors",
   "source_documents"]

/-- `ExtractionResult()` — the default record: every scalar and optional
nested object is `None` (including `lot_structure`, an optional list),
every `list[...]` field is the empty list.  This is the dump of the
"empty" value used by the merge claims. -/
def emptyER : PyDict :=
  [("project_title", PyVal.none), ("project_summary", PyVal.none),
   ("procurement_reference", PyVal.none), ("cpv_codes", PyVal.list []),
   ("nuts_codes", PyVal.list []), ("procuring_organization", PyVal.none),
   ("procurement_type", PyVal.none), ("procurement_law", PyVal.none),
   ("estimated_value", PyVal.none), ("financial_terms", PyVal.none),
   ("deadlines", PyVal.none), ("key_requirements", PyVal.list []),
   ("technical_specifications", PyVal.list []),
   ("qualification_requirements", PyVal.none),
   ("evaluation_criteria", PyVal.list []),
   ("submission_requirements", PyVal.none),
   ("restrictions_and_prohibitions", PyVal.list []),
   ("lot_structure", PyVal.none), ("special_conditions", PyVal.list []),
   ("risk_factors", PyVal.list []), ("appeal_procedures", PyVal.none),
   ("source_documents", PyVal.list []), ("confidence_notes", PyVal.list []),
   ("source_references", PyVal.list [])]

/-- A dict is the dump of an `ExtractionResult`: it has exactly the
declared fields, in declaration order. -/
def WFER (d : PyDict) : Prop :=
  d.map Prod.fst = erFields

/-- The `list[...]` fields of the record actually hold lists (guaranteed
by pydantic validation for every `ExtractionResult` value). -/
def WTypedER (d : PyDict) : Prop :=
  ∀ f ∈ listFieldNames, (pyGet d f).isList = true

/-- The `_coerce_list_fields` before-validator of `ExtractionResult`:
for each named list field, `None` becomes `[]` and a string `s` becomes
`[s]` (or `[]` when `s` is blank). -/
def coerceListFields (d : PyDict) : PyDict :=
  listFieldNames.foldl
    (fun b f =>
      match pyGet b f with
      | PyVal.none => pyDictSet b f (PyVal.list [])
      | PyVal.str s =>
          pyDictSet b f
            (PyVal.list (if pyStrip s.data = [] then [] else [PyVal.str s]))
      | _ => b)
    d

/-- `ExtractionResult.model_validate` on a dumped dict: the
`_coerce_list_fields` before-validator runs first; for the well-typed
dicts produced by merging dumps, the remaining pydantic validation (type
checking and nested-model construction) re-dumps to the same dict and is
modelled as the identity. -/
def validateER (d : PyDict) : PyDict :=
  coerceListFields d

/-- The per-field update performed by the merge loop of
`merge_chunk_extractions`: list fields are concatenated and deduplicated,
otherwise the first non-`None` value wins. -/
def mergeFieldVal (existing val : PyVal) : PyVal :=
  match existing, val with
  | PyVal.list xs, PyVal.list ys => PyVal.list (dedupPy (xs ++ ys))
  | e, v => if e.isNone && !v.isNone then v else e

/-- One iteration of the merge loop of `merge_chunk_extractions`: update
`base` at the key of `kv` (list fields are concatenated and deduplicated,
a non-`None` value fills a `None` slot, everything else keeps the
existing value with no write). -/
def mergeEntry (b : PyDict) (kv : String × PyVal) : PyDict :=
  let existing := pyGet b kv.1
  match existing, kv.2 with
  | PyVal.list xs, PyVal.list ys =>
      pyDictSet b kv.1 (PyVal.list (dedupPy (xs ++ ys)))
  | e, v => if e.isNone && !v.isNone then pyDictSet b kv.1 v else b

/-- One pass of the merge loop: fold the entries of `data` into `base`. -/
def mergeDicts (base data : PyDict) : PyDict :=
  data.foldl mergeEntry base

/-- `merge_chunk_extractions` from `extraction.py`, acting on dumped
records: empty input gives the default record, a single record is
returned as is, otherwise the tail records are folded into the first and
the result is re-validated. -/
def merge_chunk_extractions (results : List PyDict) : PyDict :=
  match results with
  | [] => emptyER
  | [r] => r
  | r :: rest => validateER (rest.foldl mergeDicts r)

/-! ### The LLM gateway retry loop (`backend/app/services/llm.py`) -/

/-- `MAX_RETRIES` from `llm.py`. -/
def MAX_RETRIES : Nat := 3

/-- `BACKOFF_SECONDS` from `llm.py`, as rational seconds. -/
def BACKOFF_SECONDS : List ℚ := [2, 4, 8]

/-- The outcome of one HTTP attempt: a response with a status code and
body, or a transport error (`httpx.HTTPError`). -/
inductive HttpOutcome where
  | resp (status : Nat) (body : String) : HttpOutcome
  | transportErr (msg : String) : HttpOutcome

/-- The error classes raised by the gateway. -/
inductive LLMErrKind where
  | rateLimited : LLMErrKind
  | serverErr (status : Nat) : LLMErrKind
  | clientErr (status : Nat) : LLMErrKind
  | transport : LLMErrKind

/-- How `_request_with_retry` ends: a successful response or a raised
error. -/
inductive ReqFinal where
  | success (status : Nat) (body : String) : ReqFinal
  | raised (e : LLMErrKind) : ReqFinal

/-- Observable trace of one `_request_with_retry` call: how many HTTP
attempts were performed, which backoff sleeps happened (in seconds), and
how the call ended. -/
structure RetryTrace where
  attemptsMade : Nat
  sleeps : List ℚ
  final : ReqFinal

/-- The `for attempt in range(MAX_RETRIES)` loop of
`_request_with_retry`.  `outcomes i` is the result of the `i`-th HTTP
attempt and `r i` the value drawn by `random.random()` before the `i`-th
backoff sleep (`sleep = base * (1 + r/2)`).  Structure of one iteration:
HTTP 429 and 5xx record a retryable error, other 4xx raise immediately,
2xx/3xx return; transport errors record a retryable error; a backoff
sleep happens unless this was the last attempt.  After the loop the last
recorded error is raised (the `.getD` default is unreachable because
`MAX_RETRIES > 0`). -/
def reqGo (outcomes : Nat → HttpOutcome) (r : Nat → ℚ) :
    Nat → Nat → List ℚ → Option LLMErrKind → RetryTrace
  | 0, attempt, sleeps, last => ⟨attempt, sleeps, ReqFinal.raised (last.getD LLMErrKind.transport)⟩
  | remaining + 1, attempt, sleeps, _last =>
      let cont := fun (last' : LLMErrKind) =>
        let sleeps' :=
          if attempt < MAX_RETRIES - 1 then
            sleeps ++ [(BACKOFF_SECONDS.getD attempt 0) * (1 + r attempt / 2)]
          else sleeps
        reqGo outcomes r remaining (attempt + 1) sleeps' (some last')
      match outcomes attempt with
      | HttpOutcome.resp status body =>
          if status = 429 then cont LLMErrKind.rateLimited
          else if 500 ≤ status then cont (LLMErrKind.serverErr status)
          else if 400 ≤ status then
            ⟨attempt + 1, sleeps, ReqFinal.raised (LLMErrKind.clientErr status)⟩
          else ⟨attempt + 1, sleeps, ReqFinal.success status body⟩
      | HttpOutcome.transportErr _ => cont LLMErrKind.transport

/-- `LLMClient._request_with_retry` from `llm.py`, as a trace of
attempts, sleeps and outcome. -/
def request_with_retry (outcomes : Nat → HttpOutcome) (r : Nat → ℚ) : RetryTrace :=
  reqGo outcomes r MAX_RETRIES 0 [] none

/-! ### JSON schema cleaning (`_clean_json_schema` in `llm.py`) -/

/-- The keys removed by `_clean_json_schema`. -/
def bannedSchemaKeys : List String :=
  ["title", "description", "default"]

/-- Python `v == "object"` for a dict-lookup result (`False` for `None`
and for every non-string value). -/
def isStrObject : PyVal → Bool
  | PyVal.str s => s = ("object")
  | _ => false

mutual

/-- `_clean_json_schema` from `llm.py`: drop `title`, `description` and
`default` entries, recurse into dict values and into dict items of list
values, then add `additionalProperties: false` when the node has
`type: "object"` and no `additionalProperties` key yet (a new dict key is
appended at the end). -/
def cleanDict (schema : List (String × PyVal)) : List (String × PyVal) :=
  let cleaned := cleanEntries schema
  if isStrObject (pyGet cleaned ("type"))
      && decide (("additionalProperties") ∉ cleaned.map Prod.fst) then
    cleaned ++ [(("additionalProperties"), PyVal.pybool false)]
  else cleaned

/-- The `for key, value in schema.items()` loop of `_clean_json_schema`. -/
def cleanEntries : List (String × PyVal) → List (String × PyVal)
  | [] => []
  | (k, v) :: rest =>
      if k ∈ bannedSchemaKeys then cleanEntries rest
      else (k, cleanValue v) :: cleanEntries rest

/-- Cleaning of a single value: dicts are cleaned recursively, list items
that are dicts are cleaned (other list items are kept as is), everything
else is kept. -/
def cleanValue : PyVal → PyVal
  | PyVal.dict kvs => PyVal.dict (cleanDict kvs)
  | PyVal.list xs => PyVal.list (cleanListItems xs)
  | v => v

/-- The list comprehension of `_clean_json_schema`. -/
def cleanListItems : List PyVal → List PyVal
  | [] => []
  | v :: vs =>
      (match v with
       | PyVal.dict kvs => PyVal.dict (cleanDict kvs)
       | w => w) :: cleanListItems vs

end

/-! ### JSON extraction (`_extract_json` in `llm.py`) -/

/-- Python `str.rstrip()`. -/
def pyRstrip (s : List Char) : List Char :=
  (s.reverse.dropWhile (· ∈ pyWS)).reverse

/-- Python `s.endswith(pat)`. -/
def endsWithB (pat l : List Char) : Bool :=
  decide (l.drop (l.length - pat.length) = pat)

/-- The markdown fence `"` ++ "``" ++ "`" ++ `"` pattern. -/
def fencePat : List Char := ['`', '`', '`']

/-- The fence-stripping prelude of `_extract_json`: when the text starts
with a code fence, drop through the first newline; when the right-stripped
text ends with a fence, drop the closing fence and right-strip again. -/
def stripFences (text : List Char) : List Char :=
  if startsWithB fencePat text then
    let firstNl := (pyFind text nlOne).getD text.length
    let text1 := text.drop (firstNl + 1)
    if endsWithB fencePat (pyRstrip text1) then
      pyRstrip ((pyRstrip text1).take ((pyRstrip text1).length - 3))
    else text1
  else text

/-- State of the balanced-object scanner of `_extract_json`. -/
structure ScanSt where
  depth : Int
  inStr : Bool
  esc : Bool

/-- The `for i in range(start, len(text))` scanner of `_extract_json`:
escape flags consume the next character, backslashes set the escape flag,
quotes toggle string mode, characters inside strings are skipped, braces
adjust the depth, and the scan stops at the `}` that brings the depth to
zero.  Returns the stop index (`Sum.inr`) or the final state when the
text ends without the depth reaching zero (`Sum.inl`). -/
def scanGo : List Char → ScanSt → Nat → Sum ScanSt Nat
  | [], st, _ => Sum.inl st
  | c :: rest, st, i =>
      if st.esc then scanGo rest ⟨st.depth, st.inStr, false⟩ (i + 1)
      else if c = '\\' then scanGo rest ⟨st.depth, st.inStr, true⟩ (i + 1)
      else if c = '"' then scanGo rest ⟨st.depth, !st.inStr, st.esc⟩ (i + 1)
      else if st.inStr then scanGo rest st (i + 1)
      else if c = '{' then scanGo rest ⟨st.depth + 1, st.inStr, st.esc⟩ (i + 1)
      else if c = '}' then
        if st.depth - 1 = 0 then Sum.inr i
        else scanGo rest ⟨st.depth - 1, st.inStr, st.esc⟩ (i + 1)
      else scanGo rest st (i + 1)

/-- `_extract_json` from `llm.py`: strip surrounding whitespace and
optional markdown fences, then slice out the first balanced `\x7b...\x7d`
object (respecting strings and escapes); when no `\x7b` occurs the text
is returned as is, and when the scan never closes, `end` keeps its
initial value `start`. -/
def _extract_json (raw : List Char) : List Char :=
  let text := stripFences (pyStrip raw)
  match pyFind text ['{'] with
  | none => text
  | some start =>
      let endIdx :=
        match scanGo (text.drop start) ⟨0, false, false⟩ start with
        | Sum.inr i => i
        | Sum.inl _ => start
      pySlice text start (endIdx + 1)

/-! ### The ephemeral thinking-chunk queue
(`services/stream_store.py`, `services/pipeline.py`) -/

/-- Capacity of the per-analysis stream queue
(`asyncio.Queue(maxsize=500)` in `create_stream`). -/
def STREAM_MAXSIZE : Nat := 500

/-- A chunk on the ephemeral lane: a thinking chunk
(`{"type": "thinking", "phase": ..., "text": ...}`) or the
`{"type": "thinking_done"}` marker. -/
inductive StreamChunk where
  | thinking (phase text : String) : StreamChunk
  | thinkingDone : StreamChunk
deriving DecidableEq

/-- `asyncio.Queue.put_nowait`: append at the tail, or fail
(`QueueFull`) when the queue holds `maxsize` items. -/
def put_nowait (q : List StreamChunk) (c : StreamChunk) : Option (List StreamChunk) :=
  if q.length < STREAM_MAXSIZE then some (q ++ [c]) else none

/-- `asyncio.Queue.get_nowait`: take from the head, or fail
(`QueueEmpty`) on an empty queue. -/
def get_nowait (q : List StreamChunk) : Option (StreamChunk × List StreamChunk) :=
  match q with
  | [] => none
  | x :: xs => some (x, xs)

/-- `AnalysisPipeline._push_thinking` from `pipeline.py`: try to enqueue;
on `QueueFull` drop the oldest chunk and enqueue the new one (the second
`put_nowait` cannot fail after a successful `get_nowait`); on
`QueueEmpty` give up. -/
def push_thinking (q : List StreamChunk) (phase text : String) : List StreamChunk :=
  let c := StreamChunk.thinking phase text
  match put_nowait q c with
  | some q2 => q2
  | none =>
      match get_nowait q with
      | some (_, q1) =>
          match put_nowait q1 c with
          | some q2 => q2
          | none => q1
      | none => q

/-- `AnalysisPipeline._push_thinking_done` from `pipeline.py`: try to
enqueue the marker; on `QueueFull` do nothing (`except QueueFull: pass`),
so the marker itself is dropped. -/
def push_thinking_done (q : List StreamChunk) : List StreamChunk :=
  match put_nowait q StreamChunk.thinkingDone with
  | some q2 => q2
  | none => q

/-! ### The extract stage executor (`extract_all` in `extraction.py`) -/

/-- A parsed document (`parser.ParsedDocument`), with the fields the
extract stage reads. -/
structure ParsedDocument where
  filename : String
  content : List Char
  page_count : Nat
  file_size_bytes : Nat
  doc_type : String
  token_estimate : Nat

/-- Token usage of one LLM call. -/
structure Usage where
  input_tokens : Nat
  output_tokens : Nat
deriving DecidableEq

/-- Zero usage, reported for documents that were skipped or failed. -/
def zeroUsage : Usage := ⟨0, 0⟩

/-- The `"[ERROR]"` sentinel marking parse failures. -/
def errSentinel : List Char := ['[', 'E', 'R', 'R', 'O', 'R', ']']

/-- `extract_document` from `extraction.py`, with the whole
chunk-and-LLM body abstracted as an oracle `attemptO` (its network
interactions are outside this embedding): a successful body returns its
record and usage; any exception is caught and converted into the default
record with the failure reason appended to `confidence_notes`, with zero
usage. -/
def extract_document (attemptO : ParsedDocument → Except String (PyDict × Usage))
    (doc : ParsedDocument) : PyDict × Usage :=
  match attemptO doc with
  | Except.ok ru => ru
  | Except.error e =>
      (pyDictSet emptyER ("confidence_notes")
        (PyVal.list [PyVal.str (("Extraction failed: ") ++ e)]), zeroUsage)

/-- A callback invocation of the extract stage (`on_started`,
`on_completed`, `on_error`). -/
inductive ExtractEvent where
  | started (idx : Nat) (filename : String) : ExtractEvent
  | completed (idx : Nat) (filename : String) (usage : Usage) : ExtractEvent
  | errored (idx : Nat) (filename : String) (message : String) : ExtractEvent
deriving DecidableEq

/-- Does a confidence note start with `"Extraction failed:"`?
(Non-string notes never do.) -/
def noteStartsFailed : PyVal → Bool
  | PyVal.str s => startsWithB (("Extraction failed:").data) s.data
  | _ => false

/-- The `has_failure_note` check of `extract_all`. -/
def hasFailureNote (result : PyDict) : Bool :=
  match pyGet result ("confidence_notes") with
  | PyVal.list items => items.any noteStartsFailed
  | _ => false

/-- `result.confidence_notes[0]`, as passed to `on_error` (only evaluated
when a failure note exists, so the list is nonempty and its head a
string). -/
def firstNote (result : PyDict) : String :=
  match pyGet result ("confidence_notes") with
  | PyVal.list (PyVal.str s :: _) => s
  | _ => ""

/-- The in-band result recorded for a document whose parsed content
carries the `[ERROR]` sentinel. -/
def errDocResult (d : ParsedDocument) : PyDict :=
  pyDictSet
    (pyDictSet emptyER ("confidence_notes")
      (PyVal.list
        [PyVal.str
          (("Document skipped (parse failure): ") ++ String.mk (d.content.take 200))]))
    ("source_documents") (PyVal.list [])

/-- The first loop of `extract_all`: split the enumerated documents into
in-band error results (content starting with the sentinel; `on_error`
fires) and the extractable remainder. -/
def extractPhase1 :
    List (Nat × ParsedDocument) →
      List (Nat × (ParsedDocument × PyDict × Usage)) × List ExtractEvent ×
        List (Nat × ParsedDocument)
  | [] => ([], [], [])
  | (i, d) :: rest =>
      let (res, evs, ex) := extractPhase1 rest
      if startsWithB errSentinel d.content then
        ((i, (d, errDocResult d, zeroUsage)) :: res,
         ExtractEvent.errored i d.filename (String.mk (d.content.take 200)) :: evs,
         ex)
      else (res, evs, (i, d) :: ex)

/-- The `_extract_one` workers of `extract_all` (the concurrent
interleaving of callbacks across documents is modelled by the sequential
order; the claims proved here depend only on each document's own
events): `on_started` fires, the document is extracted, and either
`on_error` (when the result carries a failure note) or `on_completed`
fires. -/
def extractPhase2 (attemptO : ParsedDocument → Except String (PyDict × Usage)) :
    List (Nat × ParsedDocument) →
      List (Nat × (ParsedDocument × PyDict × Usage)) × List ExtractEvent
  | [] => ([], [])
  | (i, d) :: rest =>
      let ru := extract_document attemptO d
      let evsHere :=
        ExtractEvent.started i d.filename ::
          (if hasFailureNote ru.1 then
            [ExtractEvent.errored i d.filename (firstNote ru.1)]
          else [ExtractEvent.completed i d.filename ru.2])
      let (res, evs) := extractPhase2 attemptO rest
      ((i, (d, ru.1, ru.2)) :: res, evsHere ++ evs)

/-- Stable insertion into a list sorted by first component. -/
def insByIdx {α : Type} (x : Nat × α) : List (Nat × α) → List (Nat × α)
  | [] => [x]
  | y :: ys => if x.1 ≤ y.1 then x :: y :: ys else y :: insByIdx x ys

/-- `results.sort(key=lambda x: x[0])`. -/
def sortByIdx {α : Type} (l : List (Nat × α)) : List (Nat × α) :=
  l.foldr insByIdx []

/-- `extract_all` from `extraction.py`: error documents are absorbed
in-band, the rest are extracted, and the combined results are sorted back
into input order.  Returns the result tuples and the callback trace. -/
def extract_all (docs : List ParsedDocument)
    (attemptO : ParsedDocument → Except String (PyDict × Usage)) :
    List (ParsedDocument × PyDict × Usage) × List ExtractEvent :=
  match docs with
  | [] => ([], [])
  | _ =>
      let (res1, evs1, extractable) := extractPhase1 docs.enum
      let (res2, evs2) := extractPhase2 attemptO extractable
      ((sortByIdx (res1 ++ res2)).map Prod.snd, evs1 ++ evs2)

/-! ### Progress derivation (`_build_progress` in `routers/analyze.py`) -/

/-- The status → percent buckets of `_build_progress`. -/
def statusBuckets : List (String × Nat) :=
  [("pending", 0), ("unpacking", 5), ("parsing", 15), ("extracting", 40),
   ("aggregating", 70), ("evaluating", 85), ("completed", 100),
   ("failed", 0), ("canceled", 0)]

/-- Python `analysis_status.get(status, 0)`. -/
def bucketGet : List (String × Nat) → String → Nat
  | [], _ => 0
  | kv :: rest, s => if kv.1 = s then kv.2 else bucketGet rest s

/-- The progress-percent computation of `_build_progress`: bucket by
status, and during extraction (with a positive document total) refine to
`40 + int(int(done / total * 100) * 0.30)`.  `eventTypes` lists the
`event_type` of each recorded event; `totalFiles` is
`metrics.get("total_files")`, defaulting to the number of `file_parsed`
events.  Python's float divisions are modelled by exact floor
divisions. -/
def buildProgressPercent (status : String) (eventTypes : List String)
    (totalFiles : Option Nat) : Nat :=
  let docsParsed := (eventTypes.filter (fun e => e = ("file_parsed"))).length
  let docsTotal := totalFiles.getD docsParsed
  let progressPct := bucketGet statusBuckets status
  if status = ("extracting") && decide (0 < docsTotal) then
    let extractionDone :=
      (eventTypes.filter (fun e => e = ("extraction_completed"))).length
    let extractionPct := extractionDone * 100 / docsTotal
    40 + extractionPct * 3 / 10
  else progressPct

/-- A full stream queue used as concrete input in the queue theorems. -/
def fullQ500 : List StreamChunk :=
  List.replicate 500 (StreamChunk.thinking ("a") ("b"))

/-- Association-list lookup (first occurrence), distinguishing a missing
key from a stored `None`. -/
def assocFind (d : PyDict) (k : String) : Option PyVal :=
  match d with
  | [] => none
  | kv :: rest => if kv.1 = k then some kv.2 else assocFind rest k

mutual

/-- No banned schema key occurs at any dict node reachable along the
cleaning traversal of `_clean_json_schema`: dict values, and dict items
directly inside a list value. -/
def noBanV : PyVal → Bool
  | PyVal.dict kvs => noBanD kvs
  | PyVal.list xs => noBanItems xs
  | _ => true

/-- Entry-wise banned-key check along the cleaning traversal. -/
def noBanD : List (String × PyVal) → Bool
  | [] => true
  | (k, v) :: rest => decide (k ∉ bannedSchemaKeys) && noBanV v && noBanD rest

/-- Item-wise banned-key check along the cleaning traversal (only dict
items are inspected, as in the source's list comprehension). -/
def noBanItems : List PyVal → Bool
  | [] => true
  | v :: vs =>
      (match v with
       | PyVal.dict kvs => noBanD kvs
       | _ => true) && noBanItems vs

end

mutual

/-- No banned schema key occurs at any dict node at any nesting depth
(the literal reading of the claim, recursing through every list level). -/
def noBanDeepV : PyVal → Bool
  | PyVal.dict kvs => noBanDeepD kvs
  | PyVal.list xs => noBanDeepL xs
  | _ => true

/-- Entry-wise deep banned-key check. -/
def noBanDeepD : List (String × PyVal) → Bool
  | [] => true
  | (k, v) :: rest => decide (k ∉ bannedSchemaKeys) && noBanDeepV v && noBanDeepD rest

/-- Item-wise deep banned-key check. -/
def noBanDeepL : List PyVal → Bool
  | [] => true
  | v :: vs => noBanDeepV v && noBanDeepL vs

end

/-- An object-typed dict node carries an `additionalProperties` key. -/
def apNodeOk (kvs : List (String × PyVal)) : Bool :=
  !(isStrObject (pyGet kvs ("type"))) ||
    decide (("additionalProperties") ∈ kvs.map Prod.fst)

mutual

/-- Every object-typed dict node reachable along the cleaning traversal
carries `additionalProperties`. -/
def apOkV : PyVal → Bool
  | PyVal.dict kvs => apOkDict kvs
  | PyVal.list xs => apOkItems xs
  | _ => true

/-- Node check plus entry-wise recursion. -/
def apOkDict (kvs : List (String × PyVal)) : Bool :=
  apNodeOk kvs && apOkD kvs

/-- Entry-wise `additionalProperties` check. -/
def apOkD : List (String × PyVal) → Bool
  | [] => true
  | (_, v) :: rest => apOkV v && apOkD rest

/-- Item-wise `additionalProperties` check (only dict items, as in the
source's list comprehension). -/
def apOkItems : List PyVal → Bool
  | [] => true
  | v :: vs =>
      (match v with
       | PyVal.dict kvs => apOkDict kvs
       | _ => true) && apOkItems vs

end

/-- A schema with a dict nested two list levels deep: the cleaning
recursion does not reach it. -/
def cx5schema : PyDict :=
  [(("enum"), PyVal.list [PyVal.list [PyVal.dict [(("title"), PyVal.int 0)]]])]

/-- The transformation `_coerce_list_fields` applies to a single named
list field: `None` becomes `[]`, a string becomes a one-element list (or
`[]` when blank), everything else is unchanged. -/
def coerceFieldVal : PyVal → PyVal
  | PyVal.none => PyVal.list []
  | PyVal.str s => PyVal.list (if pyStrip s.data = [] then [] else [PyVal.str s])
  | v => v

/-- An `ExtractionResult` whose `confidence_notes` list holds the same
note twice. -/
def xdupER : PyDict :=
  pyDictSet emptyER ("confidence_notes")
    (PyVal.list [PyVal.str ("a"), PyVal.str ("a")])

/-- Deduplication applied to one field: declared list fields holding a
list are deduplicated by content key, everything else is unchanged. -/
def dedupFieldVal (k : String) (v : PyVal) : PyVal :=
  if k ∈ listFieldNames then
    match v with
    | PyVal.list xs => PyVal.list (dedupPy xs)
    | w => w
  else v

/-- A record with each declared list field deduplicated by content key —
what merging with the empty record actually produces. -/
def dedupListsER (d : PyDict) : PyDict :=
  d.map (fun kv => (kv.1, dedupFieldVal kv.1 kv.2))

/-- No declared list field of the record holds two items with the same
content key. -/
def DedupFreeER (d : PyDict) : Prop :=
  ∀ f ∈ listFieldNames, ∀ xs, pyGet d f = PyVal.list xs →
    (xs.map itemKey).Nodup

/-- Records used as concrete witnesses for the merge claims. -/
def c2aER : PyDict :=
  pyDictSet emptyER ("confidence_notes")
    (PyVal.list [PyVal.str ("x"), PyVal.str ("y")])

/-- Second witness record for the merge claims. -/
def c2bER : PyDict :=
  pyDictSet emptyER ("confidence_notes")
    (PyVal.list [PyVal.str ("y"), PyVal.str ("z")])

def c5wSchema : PyDict :=
  [(("type"), PyVal.str ("object")), (("title"), PyVal.int 1)]

/-- The shape of the span list produced by a terminating run of
`chunk_text`'s loop from a given start index: every span starts where the
loop's `start` variable stood, its end is the chosen `chunkEnd`, and the
loop exits exactly when the next start reaches the end of the content. -/
inductive GoodSpans (content : List Char) (maxChars overlap : Nat) :
    Nat → List (Nat × Nat) → Prop where
  | last (start e : Nat) : start < content.length →
      e = chunkEnd content maxChars start →
      content.length ≤ e - overlap →
      GoodSpans content maxChars overlap start [(start, e)]
  | cons (start e : Nat) (rest : List (Nat × Nat)) : start < content.length →
      e = chunkEnd content maxChars start →
      e - overlap < content.length →
      GoodSpans content maxChars overlap (e - overlap) rest →
      GoodSpans content maxChars overlap start ((start, e) :: rest)

def exBad : List Char := List.replicate 2000 'a' ++ '\n' :: List.replicate 2000 'a'

def reconTail : List (List Char) → List Nat → List Char
  | [], _ => []
  | _ :: _, [] => []
  | c :: cs, o :: os => c.drop o ++ reconTail cs os

def reconWith : List (List Char) → List Nat → List Char
  | [], _ => []
  | c :: cs, os => c ++ reconTail cs os

def overlapsOf (content : List Char) : List (Nat × Nat) → List Nat
  | (_, e) :: (s', e') :: rest =>
      (min e content.length - s') :: overlapsOf content ((s', e') :: rest)
  | _ => []

def overlapClause (k : Nat) (pq : List Char × List Char) (o : Nat) : Prop :=
  o ≤ pq.1.length ∧ o ≤ pq.2.length ∧
    pq.1.drop (pq.1.length - o) = pq.2.take o ∧
    min k pq.2.length ≤ o

def ex1 : List Char := List.replicate 4005 'a'

def ex1chunks : List (List Char) :=
  [List.replicate 4002 'a', List.replicate 2003 'a', List.replicate 1 'a']

def docOutcome (attemptO : ParsedDocument → Except String (PyDict × Usage))
    (d : ParsedDocument) : ParsedDocument × PyDict × Usage :=
  if startsWithB errSentinel d.content then (d, errDocResult d, zeroUsage)
  else (d, (extract_document attemptO d).1, (extract_document attemptO d).2)

def cDoc : ParsedDocument := ⟨("doc.pdf"), ['h', 'i'], 1, 10, ("pdf"), 3⟩

inductive JInner : List Char → Prop where
  | nil : JInner []
  | chr (c : Char) (l : List Char) : c ≠ '"' → c ≠ '\\' → JInner l →
      JInner (c :: l)
  | esc (c : Char) (l : List Char) : JInner l → JInner ('\\' :: c :: l)

inductive Neutral : List Char → Prop where
  | nil : Neutral []
  | safe (c : Char) (l : List Char) : c ≠ '{' → c ≠ '}' → c ≠ '"' → c ≠ '\\' →
      Neutral l → Neutral (c :: l)
  | str (s l : List Char) : JInner s → Neutral l →
      Neutral ('"' :: (s ++ ('"' :: l)))
  | obj (inner l : List Char) : Neutral inner → Neutral l →
      Neutral ('{' :: (inner ++ ('}' :: l)))

def JsonObj (s : List Char) : Prop :=
  ∃ inner, Neutral inner ∧ s = '{' :: (inner ++ ['}'])

/-! ## Theorems -/

/-! ### C8 — the thinking-chunk queue -/

/-- Claim C8, counterexample.  The claim states that whenever a chunk —
of type `thinking` or `thinking_done` — is pushed onto a full queue, the
oldest element is discarded before the newest chunk is enqueued.  On a
full queue `_push_thinking_done` leaves the queue unchanged: the
`thinking_done` marker itself is dropped and nothing is discarded. -/
theorem claimC8_counterexample :
    push_thinking_done fullQ500 = fullQ500 ∧
      StreamChunk.thinkingDone ∉ push_thinking_done fullQ500 := by
  have hlen : fullQ500.length = STREAM_MAXSIZE := by
    rw [fullQ500, List.length_replicate]; rfl
  have hfull : put_nowait fullQ500 StreamChunk.thinkingDone = none := by
    unfold put_nowait
    rw [hlen]
    simp
  have h1 : push_thinking_done fullQ500 = fullQ500 := by
    unfold push_thinking_done
    rw [hfull]
  refine ⟨h1, ?_⟩
  rw [h1, fullQ500]
  intro hmem
  exact StreamChunk.noConfusion (List.eq_of_mem_replicate hmem)

/-- Claim C8 as amended: every chunk lives in the bounded FIFO queue of
capacity 500 per analysis; a `thinking` chunk pushed onto a full queue
discards the oldest element before being enqueued, while a
`thinking_done` marker pushed onto a full queue is itself discarded and
the queue is unchanged.  Below capacity both chunk kinds are appended at
the tail. -/
theorem claimC8_amended (q : List StreamChunk) (phase text : String) :
    (q.length < STREAM_MAXSIZE →
      push_thinking q phase text = q ++ [StreamChunk.thinking phase text] ∧
        push_thinking_done q = q ++ [StreamChunk.thinkingDone]) ∧
    (q.length = STREAM_MAXSIZE →
      push_thinking q phase text = q.drop 1 ++ [StreamChunk.thinking phase text] ∧
        push_thinking_done q = q) := by
  constructor
  · intro hlt
    constructor
    · simp [push_thinking, put_nowait, hlt]
    · simp [push_thinking_done, put_nowait, hlt]
  · intro heq
    obtain ⟨x, xs, rfl⟩ : ∃ x xs, q = x :: xs := by
      cases q with
      | nil => simp [STREAM_MAXSIZE] at heq
      | cons x xs => exact ⟨x, xs, rfl⟩
    simp only [STREAM_MAXSIZE, List.length_cons] at heq
    constructor
    · simp only [push_thinking, put_nowait, get_nowait, STREAM_MAXSIZE,
        List.length_cons, List.length_append, List.length_singleton]
      rw [if_neg (by omega), if_pos (by omega)]
      simp
    · simp only [push_thinking_done, put_nowait, STREAM_MAXSIZE, List.length_cons]
      rw [if_neg (by omega)]

/-- Witness for C8 as amended, at an empty and at a full queue. -/
theorem claimC8_witness :
    (([] : List StreamChunk).length < STREAM_MAXSIZE ∧
      push_thinking [] ("p") ("t") = [StreamChunk.thinking ("p") ("t")]) ∧
    (fullQ500.length = STREAM_MAXSIZE ∧
      push_thinking fullQ500 ("p") ("t") =
        fullQ500.drop 1 ++ [StreamChunk.thinking ("p") ("t")]) := by
  have h0 : ([] : List StreamChunk).length < STREAM_MAXSIZE := by
    simp [STREAM_MAXSIZE]
  have h500 : fullQ500.length = STREAM_MAXSIZE := by
    rw [fullQ500, List.length_replicate]; rfl
  exact ⟨⟨h0, by simpa using ((claimC8_amended [] ("p") ("t")).1 h0).1⟩,
    ⟨h500, ((claimC8_amended fullQ500 ("p") ("t")).2 h500).1⟩⟩

/-! ### C9 — derived progress percent -/

/-- Claim C9, counterexample.  With 1 of 3 extractions completed the
source computes `40 + int(int(1 / 3 * 100) * 0.30) = 40 + int(33 * 0.30)
= 49`, while the claimed bucket formula `40 + 30 × completed/total` gives
`50`: the derived percent does not equal the claimed linear formula. -/
theorem claimC9_counterexample :
    (buildProgressPercent ("extracting")
        [("file_parsed"), ("file_parsed"), ("file_parsed"),
          ("extraction_completed")] Option.none : ℚ) ≠
      40 + 30 * (1 / 3) := by
  have h : buildProgressPercent ("extracting")
      [("file_parsed"), ("file_parsed"), ("file_parsed"),
        ("extraction_completed")] Option.none = 49 := by rfl
  rw [h]
  norm_num

/-- Claim C9 as amended: the derived percent equals the status bucket —
pending 0, unpacking 5, parsing 15, aggregating 70, evaluating 85,
completed 100, failed and canceled 0 — and during extraction with a
positive document total it is `40 + ⌊0.3 · ⌊100 · completed/total⌋⌋`
(each division truncated, as in the source), which lies between 40 and 70
whenever completed ≤ total; with a zero total the extracting bucket is
40. -/
theorem claimC9_amended (events : List String) (totalFiles : Option Nat) :
    buildProgressPercent ("pending") events totalFiles = 0 ∧
    buildProgressPercent ("unpacking") events totalFiles = 5 ∧
    buildProgressPercent ("parsing") events totalFiles = 15 ∧
    buildProgressPercent ("aggregating") events totalFiles = 70 ∧
    buildProgressPercent ("evaluating") events totalFiles = 85 ∧
    buildProgressPercent ("completed") events totalFiles = 100 ∧
    buildProgressPercent ("failed") events totalFiles = 0 ∧
    buildProgressPercent ("canceled") events totalFiles = 0 ∧
    (let done := (events.filter (fun e => e = ("extraction_completed"))).length
     let total :=
       totalFiles.getD ((events.filter (fun e => e = ("file_parsed"))).length)
     (0 < total →
        buildProgressPercent ("extracting") events totalFiles =
          40 + done * 100 / total * 3 / 10 ∧
        40 ≤ buildProgressPercent ("extracting") events totalFiles ∧
        (done ≤ total →
          buildProgressPercent ("extracting") events totalFiles ≤ 70)) ∧
     (total = 0 → buildProgressPercent ("extracting") events totalFiles = 40)) := by
  refine ⟨by simp [buildProgressPercent, bucketGet, statusBuckets],
    by simp [buildProgressPercent, bucketGet, statusBuckets],
    by simp [buildProgressPercent, bucketGet, statusBuckets],
    by simp [buildProgressPercent, bucketGet, statusBuckets],
    by simp [buildProgressPercent, bucketGet, statusBuckets],
    by simp [buildProgressPercent, bucketGet, statusBuckets],
    by simp [buildProgressPercent, bucketGet, statusBuckets],
    by simp [buildProgressPercent, bucketGet, statusBuckets], ?_, ?_⟩
  · intro hpos
    have hform : buildProgressPercent ("extracting") events totalFiles =
        40 + (events.filter (fun e => e = ("extraction_completed"))).length
          * 100 /
            (totalFiles.getD
              ((events.filter (fun e => e = ("file_parsed"))).length)) * 3 / 10 := by
      simp only [buildProgressPercent]
      rw [if_pos]
      simp [hpos]
    refine ⟨hform, by rw [hform]; omega, ?_⟩
    intro hle
    rw [hform]
    set done := (events.filter (fun e => e = ("extraction_completed"))).length
    set total :=
      totalFiles.getD ((events.filter (fun e => e = ("file_parsed"))).length)
    have h1 : done * 100 / total ≤ 100 := by
      calc done * 100 / total ≤ total * 100 / total :=
            Nat.div_le_div_right (by exact Nat.mul_le_mul_right _ hle)
        _ = 100 := by
            rw [Nat.mul_comm]
            exact Nat.mul_div_cancel _ hpos
    have h2 : done * 100 / total * 3 / 10 ≤ 30 := by
      have : done * 100 / total * 3 ≤ 300 := by omega
      calc done * 100 / total * 3 / 10 ≤ 300 / 10 := Nat.div_le_div_right this
        _ = 30 := by norm_num
    omega
  · intro hzero
    simp [buildProgressPercent, bucketGet, statusBuckets, hzero]

/-- Witness for C9 as amended, at 1 of 3 extractions completed. -/
theorem claimC9_witness :
    buildProgressPercent ("extracting")
        [("file_parsed"), ("file_parsed"), ("file_parsed"),
          ("extraction_completed")] Option.none = 49 ∧
      40 ≤ (49 : Nat) ∧ (49 : Nat) ≤ 70 := by
  have h := claimC9_amended
    [("file_parsed"), ("file_parsed"), ("file_parsed"),
      ("extraction_completed")] Option.none
  have h9 := (h.2.2.2.2.2.2.2.2.1 (by norm_num)).1
  refine ⟨?_, by norm_num, by norm_num⟩
  rw [h9]
  rfl

/-! ### C4 — the gateway retry policy -/

/-- Attempts made by the retry loop are bounded by the attempts already
made plus the remaining iterations. -/
theorem reqGo_attempts_le (outcomes : Nat → HttpOutcome) (r : Nat → ℚ) :
    ∀ remaining attempt sleeps last,
      (reqGo outcomes r remaining attempt sleeps last).attemptsMade ≤
        attempt + remaining := by
  intro remaining
  induction remaining with
  | zero => intro attempt sleeps last; simp [reqGo]
  | succ n ih =>
      intro attempt sleeps last
      simp only [reqGo]
      cases outcomes attempt with
      | resp status body =>
          dsimp only
          split_ifs <;>
            first
              | exact le_trans (ih _ _ _) (by omega)
              | (show attempt + 1 ≤ attempt + (n + 1); omega)
      | transportErr m =>
          dsimp only
          split_ifs <;> exact le_trans (ih _ _ _) (by omega)

/-- Claim C4: every gateway HTTP call makes at most 3 attempts; a 4xx
status other than 429 fails fast with a `ClientError` after a single
attempt and no sleep; a retryable first outcome (429, 5xx or transport
error) followed by a success yields the success on the second attempt
after one sleep `2·(1 + r₀/2) ∈ [2,3)`; and under sustained 429 responses
exactly 3 attempts are made, `RateLimited` is raised, and the two backoff
sleeps are `2·(1 + r₀/2) ∈ [2,3)` and `4·(1 + r₁/2) ∈ [4,6)` — all sleeps
drawn from `[2,3) ∪ [4,6) ∪ [8,12)` as claimed. -/
theorem claimC4 (outcomes : Nat → HttpOutcome) (r : Nat → ℚ)
    (hr : ∀ i, 0 ≤ r i ∧ r i < 1) :
    (request_with_retry outcomes r).attemptsMade ≤ 3 ∧
    (∀ status body, 400 ≤ status → status < 500 → status ≠ 429 →
      outcomes 0 = HttpOutcome.resp status body →
      request_with_retry outcomes r =
        ⟨1, [], ReqFinal.raised (LLMErrKind.clientErr status)⟩) ∧
    (∀ body₁,
      ((∃ b, outcomes 0 = HttpOutcome.resp 429 b) ∨
        (∃ s b, outcomes 0 = HttpOutcome.resp s b ∧ 500 ≤ s) ∨
        (∃ m, outcomes 0 = HttpOutcome.transportErr m)) →
      outcomes 1 = HttpOutcome.resp 200 body₁ →
      request_with_retry outcomes r =
        ⟨2, [2 * (1 + r 0 / 2)], ReqFinal.success 200 body₁⟩ ∧
        2 ≤ 2 * (1 + r 0 / 2) ∧ 2 * (1 + r 0 / 2) < 3) ∧
    ((∀ i, i < 3 → ∃ b, outcomes i = HttpOutcome.resp 429 b) →
      request_with_retry outcomes r =
        ⟨3, [2 * (1 + r 0 / 2), 4 * (1 + r 1 / 2)],
          ReqFinal.raised LLMErrKind.rateLimited⟩ ∧
        (2 ≤ 2 * (1 + r 0 / 2) ∧ 2 * (1 + r 0 / 2) < 3) ∧
        (4 ≤ 4 * (1 + r 1 / 2) ∧ 4 * (1 + r 1 / 2) < 6)) := by
  obtain ⟨hr0l, hr0u⟩ := hr 0
  obtain ⟨hr1l, hr1u⟩ := hr 1
  refine ⟨?_, ?_, ?_, ?_⟩
  · exact reqGo_attempts_le outcomes r MAX_RETRIES 0 [] none
  · intro status body h4 h5 hne h0
    unfold request_with_retry
    simp only [MAX_RETRIES, reqGo, h0]
    rw [if_neg (by omega : ¬ status = 429), if_neg (by omega : ¬ 500 ≤ status),
      if_pos h4]
  · intro body₁ h0 h1
    have hsleep : (2 : ℚ) ≤ 2 * (1 + r 0 / 2) ∧ 2 * (1 + r 0 / 2) < 3 := by
      constructor <;> nlinarith
    have hrun : request_with_retry outcomes r =
        ⟨2, [2 * (1 + r 0 / 2)], ReqFinal.success 200 body₁⟩ := by
      unfold request_with_retry
      rcases h0 with ⟨b, h0⟩ | ⟨s, b, h0, hs⟩ | ⟨m, h0⟩
      · simp only [MAX_RETRIES, reqGo, h0, h1, BACKOFF_SECONDS]
        norm_num
      · simp only [MAX_RETRIES, reqGo, h0, h1, BACKOFF_SECONDS]
        rw [if_neg (by omega : ¬ s = 429), if_pos hs]
        norm_num
      · simp only [MAX_RETRIES, reqGo, h0, h1, BACKOFF_SECONDS]
        norm_num
    exact ⟨hrun, hsleep⟩
  · intro hsus
    obtain ⟨b0, h0⟩ := hsus 0 (by omega)
    obtain ⟨b1, h1⟩ := hsus 1 (by omega)
    obtain ⟨b2, h2⟩ := hsus 2 (by omega)
    refine ⟨?_, ⟨by nlinarith, by nlinarith⟩, ⟨by nlinarith, by nlinarith⟩⟩
    unfold request_with_retry
    simp only [MAX_RETRIES, reqGo, h0, h1, h2, BACKOFF_SECONDS]
    norm_num

/-- Witness for C4, with sustained 429 responses and zero jitter: three
attempts, sleeps of exactly 2s and 4s, `RateLimited` raised. -/
theorem claimC4_witness :
    (∀ i : Nat, 0 ≤ ((fun _ => (0 : ℚ)) i) ∧ ((fun _ => (0 : ℚ)) i) < 1) ∧
      request_with_retry (fun _ => HttpOutcome.resp 429 ("rl"))
          (fun _ => (0 : ℚ)) =
        ⟨3, [2, 4], ReqFinal.raised LLMErrKind.rateLimited⟩ := by
  have hr : ∀ i : Nat, 0 ≤ ((fun _ => (0 : ℚ)) i) ∧ ((fun _ => (0 : ℚ)) i) < 1 :=
    fun _ => ⟨le_refl 0, by norm_num⟩
  have h :=
    ((claimC4 (fun _ => HttpOutcome.resp 429 ("rl")) (fun _ => (0 : ℚ)) hr).2.2.2
      (fun i _ => ⟨("rl"), rfl⟩)).1
  refine ⟨hr, ?_⟩
  rw [h]
  norm_num

/-! ### C5 — JSON schema cleaning -/

/-- Claim C5, counterexample.  Cleaning `{"enum": [[{"title": 0}]]}`
leaves the `title` key at nesting depth 3 in place (the list
comprehension of `_clean_json_schema` only cleans dict items directly
inside a list, not lists of lists), so the cleaned output still contains
a banned key at some depth, contradicting removal at every nesting
depth. -/
theorem claimC5_counterexample :
    cleanDict cx5schema = cx5schema ∧
      noBanDeepV (PyVal.dict (cleanDict cx5schema)) = false := by
  constructor
  · simp [cx5schema, cleanDict, cleanEntries, cleanValue, cleanListItems,
      bannedSchemaKeys, isStrObject, pyGet]
  · simp [cx5schema, cleanDict, cleanEntries, cleanValue, cleanListItems,
      bannedSchemaKeys, isStrObject, pyGet, noBanDeepV, noBanDeepD, noBanDeepL]

theorem cleanEntries_append (a b : List (String × PyVal)) :
    cleanEntries (a ++ b) = cleanEntries a ++ cleanEntries b := by
  induction a with
  | nil => simp [cleanEntries]
  | cons kv rest ih =>
      obtain ⟨k, v⟩ := kv
      by_cases h : k ∈ bannedSchemaKeys <;> simp [cleanEntries, h, ih]

theorem apEntry_clean :
    cleanEntries [(("additionalProperties"), PyVal.pybool false)] =
      [(("additionalProperties"), PyVal.pybool false)] := by
  simp [cleanEntries, cleanValue, bannedSchemaKeys]

theorem cleanDict_idem_of (kvs : List (String × PyVal))
    (h : cleanEntries (cleanEntries kvs) = cleanEntries kvs) :
    cleanDict (cleanDict kvs) = cleanDict kvs := by
  by_cases hcond : (isStrObject (pyGet (cleanEntries kvs) ("type"))
      && decide (("additionalProperties") ∉ (cleanEntries kvs).map Prod.fst)) = true
  · have h1 : cleanDict kvs =
        cleanEntries kvs ++ [(("additionalProperties"), PyVal.pybool false)] := by
      rw [cleanDict, if_pos hcond]
    rw [h1, cleanDict, cleanEntries_append, h, apEntry_clean, if_neg]
    simp
  · have h1 : cleanDict kvs = cleanEntries kvs := by
      rw [cleanDict, if_neg hcond]
    rw [h1, cleanDict, h, if_neg hcond]

mutual

theorem cleanValue_idem : (v : PyVal) → cleanValue (cleanValue v) = cleanValue v
  | PyVal.none => by simp [cleanValue]
  | PyVal.pybool b => by simp [cleanValue]
  | PyVal.int n => by simp [cleanValue]
  | PyVal.str s => by simp [cleanValue]
  | PyVal.list xs => by
      simp only [cleanValue]
      rw [cleanListItems_idem xs]
  | PyVal.dict kvs => by
      simp only [cleanValue]
      rw [cleanDict_idem_of kvs (cleanEntries_idem kvs)]

theorem cleanEntries_idem :
    (kvs : List (String × PyVal)) → cleanEntries (cleanEntries kvs) = cleanEntries kvs
  | [] => by simp [cleanEntries]
  | (k, v) :: rest => by
      by_cases h : k ∈ bannedSchemaKeys
      · simp [cleanEntries, h, cleanEntries_idem rest]
      · simp [cleanEntries, h, cleanEntries_idem rest, cleanValue_idem v]

theorem cleanListItems_idem :
    (xs : List PyVal) → cleanListItems (cleanListItems xs) = cleanListItems xs
  | [] => by simp [cleanListItems]
  | PyVal.dict kvs :: vs => by
      simp [cleanListItems, cleanDict_idem_of kvs (cleanEntries_idem kvs),
        cleanListItems_idem vs]
  | PyVal.none :: vs => by simp [cleanListItems, cleanListItems_idem vs]
  | PyVal.pybool b :: vs => by simp [cleanListItems, cleanListItems_idem vs]
  | PyVal.int n :: vs => by simp [cleanListItems, cleanListItems_idem vs]
  | PyVal.str s :: vs => by simp [cleanListItems, cleanListItems_idem vs]
  | PyVal.list ys :: vs => by simp [cleanListItems, cleanListItems_idem vs]

end

theorem noBanD_append (a b : List (String × PyVal)) :
    noBanD (a ++ b) = (noBanD a && noBanD b) := by
  induction a with
  | nil => simp [noBanD]
  | cons kv rest ih =>
      obtain ⟨k, v⟩ := kv
      simp [noBanD, ih, Bool.and_assoc]

theorem noBanD_cleanDict_of (kvs : List (String × PyVal))
    (h : noBanD (cleanEntries kvs) = true) : noBanD (cleanDict kvs) = true := by
  by_cases hcond : (isStrObject (pyGet (cleanEntries kvs) ("type"))
      && decide (("additionalProperties") ∉ (cleanEntries kvs).map Prod.fst)) = true
  · rw [cleanDict, if_pos hcond, noBanD_append, h]
    simp [noBanD, noBanV, bannedSchemaKeys]
  · rw [cleanDict, if_neg hcond]
    exact h

mutual

theorem noBanV_clean : (v : PyVal) → noBanV (cleanValue v) = true
  | PyVal.none => by simp [cleanValue, noBanV]
  | PyVal.pybool b => by simp [cleanValue, noBanV]
  | PyVal.int n => by simp [cleanValue, noBanV]
  | PyVal.str s => by simp [cleanValue, noBanV]
  | PyVal.list xs => by
      simp only [cleanValue, noBanV]
      exact noBanItems_clean xs
  | PyVal.dict kvs => by
      simp only [cleanValue, noBanV]
      exact noBanD_cleanDict_of kvs (noBanD_cleanEntries kvs)

theorem noBanD_cleanEntries :
    (kvs : List (String × PyVal)) → noBanD (cleanEntries kvs) = true
  | [] => by simp [cleanEntries, noBanD]
  | (k, v) :: rest => by
      by_cases h : k ∈ bannedSchemaKeys
      · simp [cleanEntries, h, noBanD_cleanEntries rest]
      · simp [cleanEntries, h, noBanD, noBanD_cleanEntries rest, noBanV_clean v]

theorem noBanItems_clean : (xs : List PyVal) → noBanItems (cleanListItems xs) = true
  | [] => by simp [cleanListItems, noBanItems]
  | PyVal.dict kvs :: vs => by
      simp [cleanListItems, noBanItems,
        noBanD_cleanDict_of kvs (noBanD_cleanEntries kvs), noBanItems_clean vs]
  | PyVal.none :: vs => by simp [cleanListItems, noBanItems, noBanItems_clean vs]
  | PyVal.pybool b :: vs => by simp [cleanListItems, noBanItems, noBanItems_clean vs]
  | PyVal.int n :: vs => by simp [cleanListItems, noBanItems, noBanItems_clean vs]
  | PyVal.str s :: vs => by simp [cleanListItems, noBanItems, noBanItems_clean vs]
  | PyVal.list ys :: vs => by simp [cleanListItems, noBanItems, noBanItems_clean vs]

end

theorem apOkD_append (a b : List (String × PyVal)) :
    apOkD (a ++ b) = (apOkD a && apOkD b) := by
  induction a with
  | nil => simp [apOkD]
  | cons kv rest ih =>
      obtain ⟨k, v⟩ := kv
      simp [apOkD, ih, Bool.and_assoc]

theorem apOkDict_cleanDict_of (kvs : List (String × PyVal))
    (h : apOkD (cleanEntries kvs) = true) : apOkDict (cleanDict kvs) = true := by
  by_cases hcond : (isStrObject (pyGet (cleanEntries kvs) ("type"))
      && decide (("additionalProperties") ∉ (cleanEntries kvs).map Prod.fst)) = true
  · rw [cleanDict, if_pos hcond, apOkDict, apOkD_append, h]
    simp [apNodeOk, apOkD, apOkV]
  · rw [cleanDict, if_neg hcond, apOkDict, h, Bool.and_true]
    have hc : (isStrObject (pyGet (cleanEntries kvs) ("type"))
        && decide (("additionalProperties") ∉ (cleanEntries kvs).map Prod.fst)) = false :=
      Bool.eq_false_iff.mpr hcond
    rw [Bool.and_eq_false_iff] at hc
    rcases hc with hA | hB
    · simp [apNodeOk, hA]
    · simp only [decide_eq_false_iff_not, not_not] at hB
      simp [apNodeOk, hB]

mutual

theorem apOkV_clean : (v : PyVal) → apOkV (cleanValue v) = true
  | PyVal.none => by simp [cleanValue, apOkV]
  | PyVal.pybool b => by simp [cleanValue, apOkV]
  | PyVal.int n => by simp [cleanValue, apOkV]
  | PyVal.str s => by simp [cleanValue, apOkV]
  | PyVal.list xs => by
      simp only [cleanValue, apOkV]
      exact apOkItems_clean xs
  | PyVal.dict kvs => by
      simp only [cleanValue, apOkV]
      exact apOkDict_cleanDict_of kvs (apOkD_cleanEntries kvs)

theorem apOkD_cleanEntries :
    (kvs : List (String × PyVal)) → apOkD (cleanEntries kvs) = true
  | [] => by simp [cleanEntries, apOkD]
  | (k, v) :: rest => by
      by_cases h : k ∈ bannedSchemaKeys
      · simp [cleanEntries, h, apOkD_cleanEntries rest]
      · simp [cleanEntries, h, apOkD, apOkD_cleanEntries rest, apOkV_clean v]

theorem apOkItems_clean : (xs : List PyVal) → apOkItems (cleanListItems xs) = true
  | [] => by simp [cleanListItems, apOkItems]
  | PyVal.dict kvs :: vs => by
      simp [cleanListItems, apOkItems,
        apOkDict_cleanDict_of kvs (apOkD_cleanEntries kvs), apOkItems_clean vs]
  | PyVal.none :: vs => by simp [cleanListItems, apOkItems, apOkItems_clean vs]
  | PyVal.pybool b :: vs => by simp [cleanListItems, apOkItems, apOkItems_clean vs]
  | PyVal.int n :: vs => by simp [cleanListItems, apOkItems, apOkItems_clean vs]
  | PyVal.str s :: vs => by simp [cleanListItems, apOkItems, apOkItems_clean vs]
  | PyVal.list ys :: vs => by simp [cleanListItems, apOkItems, apOkItems_clean vs]

end

theorem assocFind_append_some {a : PyDict} {k : String} {v : PyVal}
    (b : PyDict) (h : assocFind a k = some v) : assocFind (a ++ b) k = some v := by
  induction a with
  | nil => simp [assocFind] at h
  | cons kv rest ih =>
      by_cases hk : kv.1 = k
      · simp [assocFind, hk] at h ⊢
        exact h
      · simp [assocFind, hk] at h ⊢
        exact ih h

theorem assocFind_append_none {a : PyDict} {k : String}
    (b : PyDict) (h : assocFind a k = none) : assocFind (a ++ b) k = assocFind b k := by
  induction a with
  | nil => simp
  | cons kv rest ih =>
      by_cases hk : kv.1 = k
      · simp [assocFind, hk] at h
      · simp [assocFind, hk] at h ⊢
        exact ih h

theorem assocFind_cleanEntries_banned (kvs : List (String × PyVal)) (k : String)
    (h : k ∈ bannedSchemaKeys) : assocFind (cleanEntries kvs) k = none := by
  induction kvs with
  | nil => simp [cleanEntries, assocFind]
  | cons kv rest ih =>
      obtain ⟨k', v⟩ := kv
      by_cases hb : k' ∈ bannedSchemaKeys
      · simp [cleanEntries, hb, ih]
      · have hne : k' ≠ k := fun he => hb (he ▸ h)
        simp [cleanEntries, hb, assocFind, hne, ih]

theorem assocFind_cleanEntries_keep (kvs : List (String × PyVal)) (k : String)
    (hnb : k ∉ bannedSchemaKeys) :
    assocFind (cleanEntries kvs) k = (assocFind kvs k).map cleanValue := by
  induction kvs with
  | nil => simp [cleanEntries, assocFind]
  | cons kv rest ih =>
      obtain ⟨k', v⟩ := kv
      by_cases hb : k' ∈ bannedSchemaKeys
      · have hne : k' ≠ k := fun he => hnb (he ▸ hb)
        simp [cleanEntries, hb, assocFind, hne, ih]
      · by_cases hk : k' = k
        · subst hk
          simp [cleanEntries, hb, assocFind]
        · simp [cleanEntries, hb, assocFind, hk, ih]

theorem assocFind_cleanDict_banned (kvs : List (String × PyVal)) (k : String)
    (h : k ∈ bannedSchemaKeys) : assocFind (cleanDict kvs) k = none := by
  have hbase := assocFind_cleanEntries_banned kvs k h
  by_cases hcond : (isStrObject (pyGet (cleanEntries kvs) ("type"))
      && decide (("additionalProperties") ∉ (cleanEntries kvs).map Prod.fst)) = true
  · rw [cleanDict, if_pos hcond, assocFind_append_none _ hbase]
    have hne : ("additionalProperties") ≠ k := by
      intro he
      rw [← he] at h
      simp [bannedSchemaKeys] at h
    simp [assocFind, hne]
  · rw [cleanDict, if_neg hcond]
    exact hbase

theorem assocFind_cleanDict_keep (kvs : List (String × PyVal)) (k : String)
    (hnb : k ∉ bannedSchemaKeys) (hnap : k ≠ ("additionalProperties")) :
    assocFind (cleanDict kvs) k = (assocFind kvs k).map cleanValue := by
  have hbase := assocFind_cleanEntries_keep kvs k hnb
  by_cases hcond : (isStrObject (pyGet (cleanEntries kvs) ("type"))
      && decide (("additionalProperties") ∉ (cleanEntries kvs).map Prod.fst)) = true
  · rw [cleanDict, if_pos hcond]
    cases hf : assocFind (cleanEntries kvs) k with
    | some v => rw [assocFind_append_some _ hf, ← hf, hbase]
    | none =>
        rw [assocFind_append_none _ hf]
        rw [hf] at hbase
        simp [assocFind, (Ne.symm hnap : ("additionalProperties") ≠ k), ← hbase]
  · rw [cleanDict, if_neg hcond]
    exact hbase


/-- Claim C5 as amended: `_clean_json_schema` is idempotent; it removes
exactly the keys `title`, `description` and `default` (every other key is
kept with its value cleaned, except the inserted `additionalProperties`)
and inserts `additionalProperties: false` on every object-typed node that
lacks it — at every dict node reachable through dict values and through
dict items directly inside a list value, which is where the source's
recursion goes. -/
theorem claimC5_amended :
    (∀ kvs, cleanDict (cleanDict kvs) = cleanDict kvs) ∧
    (∀ v, cleanValue (cleanValue v) = cleanValue v) ∧
    (∀ kvs, noBanD (cleanDict kvs) = true) ∧
    (∀ kvs, apOkDict (cleanDict kvs) = true) ∧
    (∀ kvs k, k ∈ bannedSchemaKeys → assocFind (cleanDict kvs) k = none) ∧
    (∀ kvs k, k ∉ bannedSchemaKeys → k ≠ ("additionalProperties") →
      assocFind (cleanDict kvs) k = (assocFind kvs k).map cleanValue) :=
  ⟨fun kvs => cleanDict_idem_of kvs (cleanEntries_idem kvs),
    cleanValue_idem,
    fun kvs => noBanD_cleanDict_of kvs (noBanD_cleanEntries kvs),
    fun kvs => apOkDict_cleanDict_of kvs (apOkD_cleanEntries kvs),
    assocFind_cleanDict_banned,
    assocFind_cleanDict_keep⟩

/-- Witness for C5 as amended, at a concrete two-entry schema. -/
theorem claimC5_witness :
    (("title") ∈ bannedSchemaKeys ∧ assocFind (cleanDict c5wSchema) ("title") = none) ∧
    (("type") ∉ bannedSchemaKeys ∧ ("type") ≠ ("additionalProperties") ∧
      assocFind (cleanDict c5wSchema) ("type") =
        (assocFind c5wSchema ("type")).map cleanValue) := by
  have hb : ("title") ∈ bannedSchemaKeys := by simp [bannedSchemaKeys]
  have hnb : ("type") ∉ bannedSchemaKeys := by simp [bannedSchemaKeys]
  have hnap : ("type") ≠ ("additionalProperties") := by simp
  exact ⟨⟨hb, claimC5_amended.2.2.2.2.1 c5wSchema ("title") hb⟩,
    ⟨hnb, hnap, claimC5_amended.2.2.2.2.2 c5wSchema ("type") hnb hnap⟩⟩

/-! ### C2, C3 — merging chunk extractions -/

theorem pyGet_pyDictSet_self (d : PyDict) (k : String) (v : PyVal) :
    pyGet (pyDictSet d k v) k = v := by
  induction d with
  | nil => simp [pyDictSet, pyGet]
  | cons kv rest ih =>
      by_cases h : kv.1 = k <;> simp [pyDictSet, pyGet, h, ih]

theorem pyGet_pyDictSet_other (d : PyDict) (k : String) (v : PyVal) (q : String)
    (h : q ≠ k) : pyGet (pyDictSet d k v) q = pyGet d q := by
  induction d with
  | nil => simp [pyDictSet, pyGet, Ne.symm h]
  | cons kv rest ih =>
      by_cases hk : kv.1 = k
      · have hkq : kv.1 ≠ q := by rw [hk]; exact Ne.symm h
        simp [pyDictSet, pyGet, hk, hkq, Ne.symm h]
      · by_cases hq : kv.1 = q <;> simp [pyDictSet, pyGet, hk, hq, ih, h]

theorem keys_pyDictSet (d : PyDict) (k : String) (v : PyVal)
    (h : k ∈ d.map Prod.fst) :
    (pyDictSet d k v).map Prod.fst = d.map Prod.fst := by
  induction d with
  | nil => simp at h
  | cons kv rest ih =>
      by_cases hk : kv.1 = k
      · simp [pyDictSet, hk]
      · have : k ∈ rest.map Prod.fst := by
          rcases List.mem_map.mp h with ⟨x, hx, hfst⟩
          rcases List.mem_cons.mp hx with hx1 | hx2
          · exact absurd (hx1 ▸ hfst) hk
          · exact List.mem_map.mpr ⟨x, hx2, hfst⟩
        simp [pyDictSet, hk, ih this]

theorem mergeFieldVal_none_right (e : PyVal) : mergeFieldVal e PyVal.none = e := by
  cases e <;> simp [mergeFieldVal, PyVal.isNone]

theorem pyGet_mergeEntry (b : PyDict) (kv : String × PyVal) (q : String) :
    pyGet (mergeEntry b kv) q =
      if q = kv.1 then mergeFieldVal (pyGet b kv.1) kv.2 else pyGet b q := by
  obtain ⟨k, v⟩ := kv
  by_cases hq : q = k
  · subst hq
    cases he : pyGet b q <;> cases v <;>
      simp [mergeEntry, mergeFieldVal, he, PyVal.isNone, pyGet_pyDictSet_self]
  · cases he : pyGet b k <;> cases v <;>
      simp [mergeEntry, mergeFieldVal, he, PyVal.isNone, hq,
        pyGet_pyDictSet_other _ _ _ _ hq]

theorem keys_mergeEntry (b : PyDict) (kv : String × PyVal)
    (h : kv.1 ∈ b.map Prod.fst) :
    (mergeEntry b kv).map Prod.fst = b.map Prod.fst := by
  obtain ⟨k, v⟩ := kv
  cases he : pyGet b k <;> cases v <;>
    simp [mergeEntry, he, PyVal.isNone, keys_pyDictSet _ _ _ h]

theorem pyGet_eq_none_of_not_mem (d : PyDict) (q : String)
    (h : q ∉ d.map Prod.fst) : pyGet d q = PyVal.none := by
  induction d with
  | nil => simp [pyGet]
  | cons kv rest ih =>
      simp only [List.map_cons, List.mem_cons] at h
      push_neg at h
      simp [pyGet, Ne.symm h.1, ih h.2]

theorem pyGet_mergeDicts (data : PyDict) (hnd : (data.map Prod.fst).Nodup) :
    ∀ (base : PyDict) (q : String),
      pyGet (mergeDicts base data) q =
        mergeFieldVal (pyGet base q) (pyGet data q) := by
  induction data with
  | nil => intro base q; simp [mergeDicts, pyGet, mergeFieldVal_none_right]
  | cons kv rest ih =>
      intro base q
      simp only [List.map_cons, List.nodup_cons] at hnd
      have hrec := ih hnd.2 (mergeEntry base kv) q
      have hstep : mergeDicts base (kv :: rest) = mergeDicts (mergeEntry base kv) rest := by
        simp [mergeDicts]
      rw [hstep, hrec, pyGet_mergeEntry]
      by_cases hq : q = kv.1
      · rw [if_pos hq, hq, pyGet_eq_none_of_not_mem rest kv.1 hnd.1,
          mergeFieldVal_none_right]
        simp [pyGet]
      · rw [if_neg hq]
        simp [pyGet, Ne.symm hq]

theorem keys_mergeDicts (data : PyDict) :
    ∀ (base : PyDict), (∀ kv ∈ data, kv.1 ∈ base.map Prod.fst) →
      (mergeDicts base data).map Prod.fst = base.map Prod.fst := by
  induction data with
  | nil => intro base _; simp [mergeDicts]
  | cons kv rest ih =>
      intro base hmem
      have hkv : kv.1 ∈ base.map Prod.fst := hmem kv (by simp)
      have hstep : mergeDicts base (kv :: rest) = mergeDicts (mergeEntry base kv) rest := by
        simp [mergeDicts]
      rw [hstep, ih (mergeEntry base kv), keys_mergeEntry base kv hkv]
      intro kv2 h2
      rw [keys_mergeEntry base kv hkv]
      exact hmem kv2 (by simp [h2])

theorem pyGet_coerceStep (d : PyDict) (f q : String) :
    pyGet
      (match pyGet d f with
        | PyVal.none => pyDictSet d f (PyVal.list [])
        | PyVal.str s =>
            pyDictSet d f
              (PyVal.list (if pyStrip s.data = [] then [] else [PyVal.str s]))
        | _ => d) q =
      if q = f then coerceFieldVal (pyGet d f) else pyGet d q := by
  by_cases hq : q = f
  · subst hq
    cases he : pyGet d q <;>
      simp [he, coerceFieldVal, pyGet_pyDictSet_self]
  · cases he : pyGet d f <;>
      simp [he, coerceFieldVal, hq, pyGet_pyDictSet_other _ _ _ _ hq]

theorem pyGet_coerceFold (fs : List String) :
    ∀ (d : PyDict) (q : String), fs.Nodup →
      pyGet
          (fs.foldl
            (fun b f =>
              match pyGet b f with
              | PyVal.none => pyDictSet b f (PyVal.list [])
              | PyVal.str s =>
                  pyDictSet b f
                    (PyVal.list (if pyStrip s.data = [] then [] else [PyVal.str s]))
              | _ => b)
            d) q =
        if q ∈ fs then coerceFieldVal (pyGet d q) else pyGet d q := by
  induction fs with
  | nil => intro d q _; simp
  | cons f rest ih =>
      intro d q hnd
      simp only [List.nodup_cons] at hnd
      rw [List.foldl_cons, ih _ q hnd.2, pyGet_coerceStep]
      by_cases hq : q = f
      · rw [if_pos hq, if_neg (hq ▸ hnd.1), if_pos (by simp [hq]), hq]
      · by_cases hmem : q ∈ rest
        · rw [if_pos hmem, if_neg hq, if_pos (by simp [hmem])]
        · rw [if_neg hmem, if_neg hq, if_neg (by simp [hq, hmem])]

theorem pyGet_coerceListFields (d : PyDict) (q : String) :
    pyGet (coerceListFields d) q =
      if q ∈ listFieldNames then coerceFieldVal (pyGet d q) else pyGet d q := by
  have h := pyGet_coerceFold listFieldNames d q (by decide)
  exact h

theorem keys_coerceStep (d : PyDict) (f : String) (h : f ∈ d.map Prod.fst) :
    (match pyGet d f with
      | PyVal.none => pyDictSet d f (PyVal.list [])
      | PyVal.str s =>
          pyDictSet d f
            (PyVal.list (if pyStrip s.data = [] then [] else [PyVal.str s]))
      | _ => d).map Prod.fst = d.map Prod.fst := by
  cases he : pyGet d f <;> simp [keys_pyDictSet _ _ _ h]

theorem keys_coerceListFields (d : PyDict) (hall : ∀ f ∈ listFieldNames, f ∈ d.map Prod.fst) :
    (coerceListFields d).map Prod.fst = d.map Prod.fst := by
  unfold coerceListFields
  generalize hfs : listFieldNames = fs at hall
  clear hfs
  induction fs generalizing d with
  | nil => simp
  | cons f rest ih =>
      rw [List.foldl_cons]
      rw [ih _ ?_, keys_coerceStep d f (hall f (by simp))]
      intro g hg
      rw [keys_coerceStep d f (hall f (by simp))]
      exact hall g (by simp [hg])

theorem pyDict_ext (d1 d2 : PyDict) (hkeys : d1.map Prod.fst = d2.map Prod.fst)
    (hnd : (d1.map Prod.fst).Nodup)
    (hget : ∀ q, pyGet d1 q = pyGet d2 q) : d1 = d2 := by
  induction d1 generalizing d2 with
  | nil =>
      cases d2 with
      | nil => rfl
      | cons kv rest => simp at hkeys
  | cons kv rest ih =>
      cases d2 with
      | nil => simp at hkeys
      | cons kv2 rest2 =>
          obtain ⟨k1, v1⟩ := kv
          obtain ⟨k2, v2⟩ := kv2
          simp only [List.map_cons, List.cons.injEq] at hkeys
          simp only [List.map_cons, List.nodup_cons] at hnd
          have hk : k1 = k2 := hkeys.1
          have hv : v1 = v2 := by
            have hgq := hget k1
            simp only [pyGet] at hgq
            simpa [hk] using hgq
          have htail : rest = rest2 := by
            refine ih rest2 hkeys.2 hnd.2 ?_
            intro q
            by_cases hq : q = k1
            · rw [hq]
              rw [pyGet_eq_none_of_not_mem rest k1 hnd.1,
                pyGet_eq_none_of_not_mem rest2 k1 (hkeys.2 ▸ hnd.1)]
            · have hgq := hget q
              simp only [pyGet] at hgq
              rw [if_neg (by exact fun he => hq he.symm),
                if_neg (by rw [← hk]; exact fun he => hq he.symm)] at hgq
              exact hgq
          rw [hk, hv, htail]

theorem assocFind_eq_none_iff (d : PyDict) (q : String) :
    assocFind d q = none ↔ q ∉ d.map Prod.fst := by
  induction d with
  | nil => simp [assocFind]
  | cons kv rest ih =>
      by_cases hk : kv.1 = q
      · simp [assocFind, hk]
      · rw [assocFind, if_neg hk, ih]
        simp only [List.map_cons, List.mem_cons]
        constructor
        · intro h hmem
          rcases hmem with he | hm
          · exact hk he.symm
          · exact h hm
        · intro h hm
          exact h (Or.inr hm)

theorem pyGet_eq_assocFind (d : PyDict) (q : String) :
    pyGet d q = (assocFind d q).getD PyVal.none := by
  induction d with
  | nil => simp [pyGet, assocFind]
  | cons kv rest ih =>
      by_cases hk : kv.1 = q <;> simp [pyGet, assocFind, hk, ih]

theorem pyGet_mapSnd (g : String → PyVal → PyVal) (d : PyDict) (q : String) :
    pyGet (d.map fun kv => (kv.1, g kv.1 kv.2)) q =
      (match assocFind d q with
        | some v => g q v
        | none => PyVal.none) := by
  induction d with
  | nil => simp [pyGet, assocFind]
  | cons kv rest ih =>
      by_cases hk : kv.1 = q
      · simp [pyGet, assocFind, hk]
      · simp [pyGet, assocFind, hk, ih]

theorem keys_mapSnd (g : String → PyVal → PyVal) (d : PyDict) :
    (d.map fun kv => (kv.1, g kv.1 kv.2)).map Prod.fst = d.map Prod.fst := by
  induction d with
  | nil => rfl
  | cons kv rest ih => simp [ih]

theorem dedupGo_eq_self (xs : List PyVal) :
    ∀ seen, (∀ v ∈ xs, itemKey v ∉ seen) → (xs.map itemKey).Nodup →
      dedupGo seen xs = xs := by
  induction xs with
  | nil => intro seen _ _; rfl
  | cons v vs ih =>
      intro seen hseen hnd
      simp only [List.map_cons, List.nodup_cons] at hnd
      rw [dedupGo, if_neg (hseen v (by simp))]
      rw [ih (itemKey v :: seen) ?_ hnd.2]
      intro w hw
      simp only [List.mem_cons, not_or]
      exact ⟨fun he => hnd.1 (he ▸ List.mem_map.mpr ⟨w, hw, rfl⟩),
        hseen w (by simp [hw])⟩

theorem dedupPy_eq_self (xs : List PyVal) (h : (xs.map itemKey).Nodup) :
    dedupPy xs = xs :=
  dedupGo_eq_self xs [] (by simp) h

theorem erFields_nodup : erFields.Nodup := by decide

theorem lf_sub_er : ∀ f ∈ listFieldNames, f ∈ erFields := by decide

theorem emptyER_keys : emptyER.map Prod.fst = erFields := rfl

theorem emptyER_lf (f : String) (hf : f ∈ listFieldNames) :
    pyGet emptyER f = PyVal.list [] := by
  fin_cases hf <;> rfl

theorem emptyER_scalar (q : String) (h1 : q ∈ erFields) (h2 : q ∉ listFieldNames) :
    pyGet emptyER q = PyVal.none := by
  fin_cases h1 <;> first | rfl | exact absurd (by decide) h2

/-- Claim C2: for any two `ExtractionResult` dumps and every field on
which both hold lists, the merge of `[a, b]` holds the concatenation of
`a`'s list followed by `b`'s list, deduplicated by content key — dicts by
their key-sorted canonical JSON serialization, other items by their
Python string form — with first-seen order preserved (that is exactly
`dedupPy`). -/
theorem claimC2 (a b : PyDict) (_ha : WFER a) (hb : WFER b) (k : String)
    (xs ys : List PyVal) (hxa : pyGet a k = PyVal.list xs)
    (hyb : pyGet b k = PyVal.list ys) :
    pyGet (merge_chunk_extractions [a, b]) k = PyVal.list (dedupPy (xs ++ ys)) := by
  have hbnd : (b.map Prod.fst).Nodup := by rw [hb]; exact erFields_nodup
  have hm : merge_chunk_extractions [a, b] = validateER (mergeDicts a b) := rfl
  rw [hm]
  unfold validateER
  rw [pyGet_coerceListFields, pyGet_mergeDicts b hbnd a k, hxa, hyb]
  by_cases hk : k ∈ listFieldNames
  · rw [if_pos hk]
    simp [mergeFieldVal, coerceFieldVal]
  · rw [if_neg hk]
    simp [mergeFieldVal]

/-- Claim C3, counterexample.  For a record whose `confidence_notes`
holds the same note twice, merging with the default (empty) record
deduplicates the list, so `merge([x, empty]) ≠ x`. -/
theorem claimC3_counterexample :
    merge_chunk_extractions [xdupER, emptyER] ≠ xdupER := by
  intro h
  have h1 : pyGet (merge_chunk_extractions [xdupER, emptyER]) ("confidence_notes") =
      PyVal.list [PyVal.str ("a")] := by rfl
  rw [h] at h1
  have h2 : pyGet xdupER ("confidence_notes") =
      PyVal.list [PyVal.str ("a"), PyVal.str ("a")] := by rfl
  rw [h2] at h1
  simp at h1

theorem mergedER_get (x : PyDict) (hwf : WFER x) (hty : WTypedER x) (q : String) :
    pyGet (validateER (mergeDicts x emptyER)) q = pyGet (dedupListsER x) q := by
  have hend : (emptyER.map Prod.fst).Nodup := by
    rw [emptyER_keys]; exact erFields_nodup
  unfold validateER
  rw [pyGet_coerceListFields, pyGet_mergeDicts emptyER hend x q]
  unfold dedupListsER
  rw [pyGet_mapSnd dedupFieldVal]
  cases haq : assocFind x q with
  | some v =>
      have hxq : pyGet x q = v := by rw [pyGet_eq_assocFind, haq]; rfl
      have hqer : q ∈ erFields := by
        rw [← hwf]
        by_contra hmem
        rw [(assocFind_eq_none_iff x q).mpr hmem] at haq
        cases haq
      by_cases hlf : q ∈ listFieldNames
      · obtain ⟨zs, hzs⟩ : ∃ zs, v = PyVal.list zs := by
          have := hty q hlf
          rw [hxq] at this
          cases v <;> simp [PyVal.isList] at this
          exact ⟨_, rfl⟩
        rw [emptyER_lf q hlf, hxq, hzs, if_pos hlf]
        simp [mergeFieldVal, coerceFieldVal, dedupFieldVal, hlf]
      · rw [emptyER_scalar q hqer hlf, hxq, if_neg hlf, mergeFieldVal_none_right]
        simp [dedupFieldVal, hlf]
  | none =>
      have hnm : q ∉ x.map Prod.fst := (assocFind_eq_none_iff x q).mp haq
      have hxq : pyGet x q = PyVal.none := pyGet_eq_none_of_not_mem x q hnm
      have hlf : q ∉ listFieldNames := by
        intro hq
        exact hnm (by rw [hwf]; exact lf_sub_er q hq)
      have heq : pyGet emptyER q = PyVal.none := by
        apply pyGet_eq_none_of_not_mem
        rw [emptyER_keys, ← hwf]
        exact hnm
      rw [hxq, heq, if_neg hlf, mergeFieldVal_none_right]

/-- Claim C3 as amended: `merge([x]) = x` for every record, and
`merge([x, empty])` equals `x` with each declared list field
deduplicated by content key; in particular `merge([x, empty]) = x`
whenever no list field of `x` holds two items with the same content
key. -/
theorem claimC3_amended (x : PyDict) (hwf : WFER x) (hty : WTypedER x) :
    merge_chunk_extractions [x] = x ∧
      merge_chunk_extractions [x, emptyER] = dedupListsER x ∧
      (DedupFreeER x → merge_chunk_extractions [x, emptyER] = x) := by
  have hxnd : (x.map Prod.fst).Nodup := by rw [hwf]; exact erFields_nodup
  have hm : merge_chunk_extractions [x, emptyER] = validateER (mergeDicts x emptyER) := by
    simp only [merge_chunk_extractions, List.foldl_cons, List.foldl_nil]
  have hkeysm : (mergeDicts x emptyER).map Prod.fst = x.map Prod.fst := by
    apply keys_mergeDicts
    intro kv hkv
    rw [hwf, ← emptyER_keys]
    exact List.mem_map.mpr ⟨kv, hkv, rfl⟩
  have hkeysv : (validateER (mergeDicts x emptyER)).map Prod.fst = x.map Prod.fst := by
    unfold validateER
    rw [keys_coerceListFields _ ?_, hkeysm]
    intro f hf
    rw [hkeysm, hwf]
    exact lf_sub_er f hf
  have hkeysd : (dedupListsER x).map Prod.fst = x.map Prod.fst := by
    unfold dedupListsER
    exact keys_mapSnd dedupFieldVal x
  have hsecond : merge_chunk_extractions [x, emptyER] = dedupListsER x := by
    rw [hm]
    apply pyDict_ext
    · rw [hkeysv, hkeysd]
    · rw [hkeysv]; exact hxnd
    · intro q
      exact mergedER_get x hwf hty q
  refine ⟨rfl, hsecond, ?_⟩
  intro hdf
  rw [hsecond]
  apply pyDict_ext
  · rw [hkeysd]
  · rw [hkeysd]; exact hxnd
  · intro q
    unfold dedupListsER
    rw [pyGet_mapSnd dedupFieldVal]
    cases haq : assocFind x q with
    | some v =>
        have hxq : pyGet x q = v := by rw [pyGet_eq_assocFind, haq]; rfl
        by_cases hlf : q ∈ listFieldNames
        · obtain ⟨zs, hzs⟩ : ∃ zs, v = PyVal.list zs := by
            have := hty q hlf
            rw [hxq] at this
            cases v <;> simp [PyVal.isList] at this
            exact ⟨_, rfl⟩
          have hnd := hdf q hlf zs (by rw [hxq, hzs])
          rw [hxq, hzs]
          simp [dedupFieldVal, hlf, dedupPy_eq_self zs hnd]
        · rw [hxq]
          simp [dedupFieldVal, hlf]
    | none =>
        have hnm : q ∉ x.map Prod.fst := (assocFind_eq_none_iff x q).mp haq
        rw [pyGet_eq_none_of_not_mem x q hnm]

/-- Witness for C2 at two concrete records sharing one note. -/
theorem claimC2_witness :
    WFER c2aER ∧ WFER c2bER ∧
      pyGet c2aER ("confidence_notes") =
        PyVal.list [PyVal.str ("x"), PyVal.str ("y")] ∧
      pyGet (merge_chunk_extractions [c2aER, c2bER]) ("confidence_notes") =
        PyVal.list
          (dedupPy
            ([PyVal.str ("x"), PyVal.str ("y")] ++
              [PyVal.str ("y"), PyVal.str ("z")])) ∧
      dedupPy
          ([PyVal.str ("x"), PyVal.str ("y")] ++ [PyVal.str ("y"), PyVal.str ("z")]) =
        [PyVal.str ("x"), PyVal.str ("y"), PyVal.str ("z")] := by
  have hwa : WFER c2aER := rfl
  have hwb : WFER c2bER := rfl
  exact ⟨hwa, hwb, rfl,
    claimC2 c2aER c2bER hwa hwb ("confidence_notes") _ _ rfl rfl, rfl⟩

/-- Witness for C3 as amended, at the default record. -/
theorem claimC3_witness :
    WFER emptyER ∧ WTypedER emptyER ∧ DedupFreeER emptyER ∧
      merge_chunk_extractions [emptyER] = emptyER ∧
      merge_chunk_extractions [emptyER, emptyER] = emptyER := by
  have hwf : WFER emptyER := rfl
  have hty : WTypedER emptyER := by
    intro f hf
    fin_cases hf <;> rfl
  have hdf : DedupFreeER emptyER := by
    intro f hf xs hxs
    fin_cases hf <;>
      · have h2 : PyVal.list [] = PyVal.list xs := hxs
        cases h2
        simp
  obtain ⟨h1, h2, h3⟩ := claimC3_amended emptyER hwf hty
  exact ⟨hwf, hty, hdf, h1, h3 hdf⟩

/-! ### C1, C10 — chunking lemmas -/

theorem pySlice_length (c : List Char) (a b : Nat) :
    (pySlice c a b).length = min (b - a) (c.length - a) := by
  simp [pySlice]

theorem pySlice_clamp (c : List Char) (a b : Nat) :
    pySlice c a b = pySlice c a (min b c.length) := by
  by_cases h : b ≤ c.length
  · rw [min_eq_left h]
  · push_neg at h
    rw [min_eq_right (le_of_lt h)]
    unfold pySlice
    have hlen : (c.drop a).length ≤ b - a := by
      simp [List.length_drop]
      omega
    have hlen2 : (c.drop a).length ≤ c.length - a := by
      simp [List.length_drop]
    rw [List.take_of_length_le hlen, List.take_of_length_le hlen2]

theorem pySlice_append (c : List Char) (a b d : Nat) (hab : a ≤ b) (hbd : b ≤ d) :
    pySlice c a b ++ pySlice c b d = pySlice c a d := by
  unfold pySlice
  have hd : d - a = (b - a) + (d - b) := by omega
  rw [hd, List.take_add, List.drop_drop]
  have hb : a + (b - a) = b := by omega
  rw [hb]

theorem pySlice_drop (c : List Char) (a b k : Nat) :
    (pySlice c a b).drop k = pySlice c (a + k) b := by
  unfold pySlice
  rw [List.drop_take, List.drop_drop]
  congr 1
  omega

theorem pySlice_take (c : List Char) (a b k : Nat) (h : k ≤ b - a) :
    (pySlice c a b).take k = pySlice c a (a + k) := by
  unfold pySlice
  rw [List.take_take, min_eq_left h]
  congr 1
  omega

theorem rfindGo_lt (pat : List Char) :
    ∀ (l : List Char) (i : Nat) (best : Option Nat),
      (∀ q, best = some q → q < i) →
      ∀ p, rfindGo pat l i best = some p → p < i + l.length := by
  intro l
  induction l with
  | nil =>
      intro i best hbest p hp
      simp only [rfindGo] at hp
      simpa using hbest p hp
  | cons c rest ih =>
      intro i best hbest p hp
      simp only [rfindGo] at hp
      have h2 := ih (i + 1)
        (if prefixAtB pat (c :: rest) then some i else best) ?_ p hp
      · simpa [Nat.add_comm, Nat.add_assoc, Nat.add_left_comm] using h2
      · intro q hq
        by_cases hpre : prefixAtB pat (c :: rest)
        · rw [if_pos hpre] at hq
          cases hq
          omega
        · rw [if_neg hpre] at hq
          exact Nat.lt_trans (hbest q hq) (by omega)

theorem pyRfind_lt (hay pat : List Char) (p : Nat) (h : pyRfind hay pat = some p) :
    p < hay.length := by
  have := rfindGo_lt pat hay 0 none (by intro q hq; cases hq) p h
  simpa using this

theorem markerCand_bound (content : List Char) (ss : Nat) (region pat : List Char)
    (c : Nat) (h : markerCand content ss region pat = some c) :
    ss ≤ c ∧ c < ss + region.length := by
  unfold markerCand at h
  cases hr : pyRfind region pat with
  | none => rw [hr] at h; cases h
  | some pos =>
      rw [hr] at h
      by_cases ht : insideTable content (ss + pos)
      · simp [ht] at h
      · simp [ht] at h
        have := pyRfind_lt region pat pos hr
        omega

theorem findStructureBreak_bounds (content : List Char) (ss se : Nat) (hle : ss ≤ se) :
    ss ≤ findStructureBreak content ss se ∧ findStructureBreak content ss se ≤ se := by
  unfold findStructureBreak
  dsimp only
  have hreg : (pySlice content ss se).length ≤ se - ss := by
    rw [pySlice_length]
    omega
  cases h1 : markerCand content ss (pySlice content ss se) nlHH with
  | some c =>
      have := markerCand_bound content ss _ nlHH c h1
      dsimp only
      omega
  | none =>
      cases h2 : markerCand content ss (pySlice content ss se) nlH with
      | some c =>
          have := markerCand_bound content ss _ nlH c h2
          dsimp only
          omega
      | none =>
          cases h3 : markerCand content ss (pySlice content ss se) nlNl with
          | some c =>
              have := markerCand_bound content ss _ nlNl c h3
              dsimp only
              omega
          | none =>
              cases h4 : pyRfind (pySlice content ss se) nlOne with
              | some pos =>
                  have := pyRfind_lt _ nlOne pos h4
                  dsimp only
                  omega
              | none =>
                  dsimp only
                  omega

theorem chunkEnd_bounds (content : List Char) (C start : Nat) :
    start + C / 2 ≤ chunkEnd content C start ∧
      chunkEnd content C start ≤ start + C := by
  unfold chunkEnd
  by_cases h : start + C < content.length
  · rw [if_pos h]
    have hb := findStructureBreak_bounds content (start + C / 2) (start + C)
      (by omega)
    omega
  · rw [if_neg h]
    omega

theorem nextStart_gt (content : List Char) (C overlap start : Nat)
    (hov : overlap < C / 2) :
    start < nextStart content C overlap start := by
  unfold nextStart
  have := chunkEnd_bounds content C start
  omega

theorem chunkSpansGo_spec (content : List Char) (C overlap : Nat)
    (hov : overlap < C / 2) :
    ∀ (fuel start : Nat), start < content.length →
      content.length - start < fuel →
      ∃ spans, chunkSpansGo content C overlap fuel start = some spans ∧
        GoodSpans content C overlap start spans := by
  intro fuel
  induction fuel with
  | zero => intro start _ hf; omega
  | succ f ih =>
      intro start hs hf
      have hstep : start < nextStart content C overlap start :=
        nextStart_gt content C overlap start hov
      by_cases hns : nextStart content C overlap start < content.length
      · obtain ⟨spans, hrun, hgood⟩ :=
          ih (nextStart content C overlap start) hns (by omega)
        refine ⟨(start, chunkEnd content C start) :: spans, ?_, ?_⟩
        · simp only [chunkSpansGo, if_pos hs]
          rw [hrun]
        · exact GoodSpans.cons start _ spans hs rfl hns hgood
      · cases f with
        | zero => omega
        | succ f2 =>
            refine ⟨[(start, chunkEnd content C start)], ?_, ?_⟩
            · simp only [chunkSpansGo, if_pos hs]
              rw [if_neg hns]
            · exact GoodSpans.last start _ hs rfl (by unfold nextStart at hns; omega)

theorem overlap_lt_half (C : Nat) (hC : 4002 ≤ C) :
    max (C / 10) 2000 < C / 2 := by
  omega

theorem calculate_max_chars_ge (ctx : Nat) : 22400 ≤ calculate_max_chars ctx := by
  unfold calculate_max_chars
  dsimp only
  have h1 : 8000 ≤ max (ctx - 37000) 8000 := le_max_right _ _
  have h2 : 8000 * 7 / 10 ≤ (max (ctx - 37000) 8000) * 7 / 10 :=
    Nat.div_le_div_right (Nat.mul_le_mul_right _ h1)
  omega

theorem rfindGo_repl_none (pat : List Char) (a : Char)
    (hfalse : ∀ k, prefixAtB pat (List.replicate k a) = false) :
    ∀ (n : Nat) (i : Nat) (best : Option Nat),
      rfindGo pat (List.replicate n a) i best = best := by
  intro n
  induction n with
  | zero => intro i best; simp [rfindGo]
  | succ m ih =>
      intro i best
      rw [List.replicate_succ, rfindGo, ← List.replicate_succ, hfalse, if_neg]
      · exact ih (i + 1) best
      · simp

theorem prefixAtB_nl_repl (pat : List Char) (hpat : pat.head? = some '\n') :
    ∀ k, prefixAtB pat (List.replicate k 'a') = false := by
  intro k
  cases pat with
  | nil => simp at hpat
  | cons p ps =>
      have hp : p = '\n' := by simpa using hpat
      cases k with
      | zero => simp [prefixAtB]
      | succ m =>
          rw [List.replicate_succ]
          simp only [prefixAtB, List.length_cons, List.take_succ_cons,
            decide_eq_false_iff_not]
          intro he
          have : 'a' = p := (List.cons.injEq _ _ _ _ ▸ he).1
          rw [hp] at this
          cases this

theorem exBad_length : exBad.length = 4001 := by
  unfold exBad
  rw [List.length_append, List.length_cons, List.length_replicate]

theorem exBad_region : pySlice exBad 2000 4000 = '\n' :: List.replicate 1999 'a' := by
  unfold pySlice exBad
  rw [List.drop_left' (by rw [List.length_replicate])]
  have h1 : (4000 : Nat) - 2000 = 1999 + 1 := by norm_num
  rw [h1, List.take_succ_cons, List.take_replicate]
  norm_num

theorem pyRfind_nlregion_none (pat : List Char)
    (hpat : pat.head? = some '\n')
    (hpre : prefixAtB pat ('\n' :: List.replicate 1999 'a') = false) :
    pyRfind ('\n' :: List.replicate 1999 'a') pat = none := by
  unfold pyRfind
  rw [rfindGo, hpre, if_neg (by simp)]
  exact rfindGo_repl_none pat 'a' (prefixAtB_nl_repl pat hpat) 1999 1 none

theorem prefix_nlHH_region :
    prefixAtB nlHH ('\n' :: List.replicate 1999 'a') = false := by decide

theorem prefix_nlH_region :
    prefixAtB nlH ('\n' :: List.replicate 1999 'a') = false := by decide

theorem prefix_nlNl_region :
    prefixAtB nlNl ('\n' :: List.replicate 1999 'a') = false := by decide

theorem pyRfind_region_nlOne :
    pyRfind ('\n' :: List.replicate 1999 'a') nlOne = some 0 := by
  unfold pyRfind
  rw [rfindGo, if_pos (by decide)]
  exact rfindGo_repl_none nlOne 'a'
    (prefixAtB_nl_repl nlOne (by decide)) 1999 1 (some 0)

theorem fsb_exBad : findStructureBreak exBad 2000 4000 = 2000 := by
  unfold findStructureBreak
  rw [exBad_region]
  dsimp only
  rw [show markerCand exBad 2000 ('\n' :: List.replicate 1999 'a') nlHH = none from by
    unfold markerCand
    rw [pyRfind_nlregion_none nlHH (by decide) prefix_nlHH_region]]
  rw [show markerCand exBad 2000 ('\n' :: List.replicate 1999 'a') nlH = none from by
    unfold markerCand
    rw [pyRfind_nlregion_none nlH (by decide) prefix_nlH_region]]
  rw [show markerCand exBad 2000 ('\n' :: List.replicate 1999 'a') nlNl = none from by
    unfold markerCand
    rw [pyRfind_nlregion_none nlNl (by decide) prefix_nlNl_region]]
  rw [pyRfind_region_nlOne]

theorem chunkEnd_exBad : chunkEnd exBad 4000 0 = 2000 := by
  unfold chunkEnd
  rw [if_pos (by rw [exBad_length]; norm_num)]
  norm_num
  exact fsb_exBad

theorem nextStart_exBad : nextStart exBad 4000 (max (4000 / 10) 2000) 0 = 0 := by
  unfold nextStart
  rw [chunkEnd_exBad]
  omega

/-- C10: `calculate_max_chars` always returns at least 22,400; with
`max_chars` any value produced by `calculate_max_chars` every iteration of
`chunk_text`'s loop strictly increases the start index (the minimum
advance `max_chars / 2` exceeds the overlap `max (max_chars / 10) 2000`),
so `chunk_text` terminates on every content; the precondition is
necessary: with the small value `max_chars = 4000` passed directly there
is a content (`exBad`) on which the start index does not increase. -/
theorem claimC10 :
    (∀ ctx, 22400 ≤ calculate_max_chars ctx) ∧
    (∀ (content : List Char) (ctx start : Nat),
        start < nextStart content (calculate_max_chars ctx)
          (max (calculate_max_chars ctx / 10) 2000) start) ∧
    (∀ (content : List Char) (ctx : Nat),
        (chunk_text content (calculate_max_chars ctx)).isSome) ∧
    nextStart exBad 4000 (max (4000 / 10) 2000) 0 = 0 := by
  refine ⟨calculate_max_chars_ge, ?_, ?_, nextStart_exBad⟩
  · intro content ctx start
    exact nextStart_gt content _ _ start
      (overlap_lt_half _ (by have := calculate_max_chars_ge ctx; omega))
  · intro content ctx
    unfold chunk_text
    by_cases h : content.length ≤ calculate_max_chars ctx
    · rw [if_pos h]
      rfl
    · rw [if_neg h]
      have hC := calculate_max_chars_ge ctx
      obtain ⟨spans, hrun, -⟩ := chunkSpansGo_spec content (calculate_max_chars ctx)
        (max (calculate_max_chars ctx / 10) 2000)
        (overlap_lt_half _ (by omega))
        (content.length + 1) 0 (by omega) (by omega)
      dsimp only
      rw [hrun]
      rfl

theorem ex1_length : ex1.length = 4005 := by
  unfold ex1
  rw [List.length_replicate]

theorem pySlice_replicate (n i j : Nat) (a : Char) :
    pySlice (List.replicate n a) i j = List.replicate (min (j - i) (n - i)) a := by
  unfold pySlice
  rw [List.drop_replicate, List.take_replicate]

theorem pyRfind_repl_none (pat : List Char) (hpat : pat.head? = some '\n') (k : Nat) :
    pyRfind (List.replicate k 'a') pat = none := by
  unfold pyRfind
  exact rfindGo_repl_none pat 'a' (prefixAtB_nl_repl pat hpat) k 0 none

theorem fsb_repl (content : List Char) (a b k : Nat)
    (h : pySlice content a b = List.replicate k 'a') :
    findStructureBreak content a b = b := by
  unfold findStructureBreak
  rw [h]
  dsimp only
  rw [show markerCand content a (List.replicate k 'a') nlHH = none from by
    unfold markerCand
    rw [pyRfind_repl_none nlHH (by decide) k]]
  rw [show markerCand content a (List.replicate k 'a') nlH = none from by
    unfold markerCand
    rw [pyRfind_repl_none nlH (by decide) k]]
  rw [show markerCand content a (List.replicate k 'a') nlNl = none from by
    unfold markerCand
    rw [pyRfind_repl_none nlNl (by decide) k]]
  rw [pyRfind_repl_none nlOne (by decide) k]

theorem csg_step (content : List Char) (C B f s : Nat) (hs : s < content.length)
    (r : List (Nat × Nat))
    (hrec : chunkSpansGo content C B f (nextStart content C B s) = some r) :
    chunkSpansGo content C B (f + 1) s =
      some ((s, chunkEnd content C s) :: r) := by
  rw [chunkSpansGo, if_pos hs]
  dsimp only
  rw [hrec]

theorem csg_stop (content : List Char) (C B f s : Nat)
    (hs : content.length ≤ s) :
    chunkSpansGo content C B (f + 1) s = some [] := by
  rw [chunkSpansGo, if_neg (by omega)]

theorem chunkEnd_ex1_0 : chunkEnd ex1 4002 0 = 4002 := by
  unfold chunkEnd
  rw [if_pos (by rw [ex1_length]; norm_num)]
  norm_num
  apply fsb_repl ex1 2001 4002 2001
  unfold ex1
  rw [pySlice_replicate]
  norm_num

theorem chunkEnd_ex1_1 : chunkEnd ex1 4002 2002 = 6004 := by
  unfold chunkEnd
  rw [if_neg (by rw [ex1_length]; norm_num)]

theorem chunkEnd_ex1_2 : chunkEnd ex1 4002 4004 = 8006 := by
  unfold chunkEnd
  rw [if_neg (by rw [ex1_length]; norm_num)]

theorem nextStart_ex1_0 : nextStart ex1 4002 2000 0 = 2002 := by
  unfold nextStart
  rw [chunkEnd_ex1_0]

theorem nextStart_ex1_1 : nextStart ex1 4002 2000 2002 = 4004 := by
  unfold nextStart
  rw [chunkEnd_ex1_1]

theorem nextStart_ex1_2 : nextStart ex1 4002 2000 4004 = 6006 := by
  unfold nextStart
  rw [chunkEnd_ex1_2]

theorem csg_ex1 : chunkSpansGo ex1 4002 2000 4006 0 =
    some [(0, 4002), (2002, 6004), (4004, 8006)] := by
  have hstop : chunkSpansGo ex1 4002 2000 4003 6006 = some [] :=
    csg_stop ex1 4002 2000 4002 6006 (by rw [ex1_length]; norm_num)
  have h2 : chunkSpansGo ex1 4002 2000 4004 4004 = some [(4004, 8006)] := by
    have h := csg_step ex1 4002 2000 4003 4004 (by rw [ex1_length]; norm_num) []
      (by rw [nextStart_ex1_2]; exact hstop)
    rw [chunkEnd_ex1_2] at h
    exact h
  have h1 : chunkSpansGo ex1 4002 2000 4005 2002 =
      some [(2002, 6004), (4004, 8006)] := by
    have h := csg_step ex1 4002 2000 4004 2002 (by rw [ex1_length]; norm_num)
      [(4004, 8006)] (by rw [nextStart_ex1_1]; exact h2)
    rw [chunkEnd_ex1_1] at h
    exact h
  have h := csg_step ex1 4002 2000 4005 0 (by rw [ex1_length]; norm_num)
    [(2002, 6004), (4004, 8006)] (by rw [nextStart_ex1_0]; exact h1)
  rw [chunkEnd_ex1_0] at h
  exact h

theorem chunk_text_ex1 : chunk_text ex1 4002 = some ex1chunks := by
  unfold chunk_text
  rw [if_neg (by rw [ex1_length]; norm_num)]
  dsimp only
  rw [show max (4002 / 10) 2000 = 2000 from by norm_num, ex1_length]
  rw [show (4005 : Nat) + 1 = 4006 from rfl, csg_ex1]
  unfold ex1chunks ex1
  simp only [Option.map_some, List.map_cons, List.map_nil, pySlice_replicate]
  norm_num

/-- C1: the source chunker does not guarantee an overlap of at least
`min (maxChars / 10) 2000` characters between every pair of consecutive
chunks: on 4005 copies of `'a'` with `maxChars = 4002` the final chunk has
only one character, so no suffix/prefix match of length at least
`min (4002 / 10) 2000 = 400` exists between the last two chunks. -/
theorem claimC1_counterexample :
    chunk_text ex1 4002 = some ex1chunks ∧
    ¬ ex1chunks.Chain'
        (fun a b => ∃ o, min (4002 / 10) 2000 ≤ o ∧ o ≤ a.length ∧
          o ≤ b.length ∧ a.drop (a.length - o) = b.take o) := by
  refine ⟨chunk_text_ex1, ?_⟩
  intro h
  unfold ex1chunks at h
  rw [List.chain'_cons, List.chain'_cons] at h
  obtain ⟨-, ⟨o, ho1, -, ho3, -⟩, -⟩ := h
  rw [List.length_replicate] at ho3
  omega

theorem goodSpans_head {content : List Char} {C B s : Nat}
    {spans : List (Nat × Nat)} (h : GoodSpans content C B s spans) :
    ∃ tl, spans = (s, chunkEnd content C s) :: tl := by
  cases h with
  | last s e hs he hend => exact ⟨[], by rw [he]⟩
  | cons s e rest hs he hlt hrest => exact ⟨rest, by rw [he]⟩

theorem goodSpans_chunks (content : List Char) (C B : Nat)
    (hB : B < C / 2) (hBk : min (C / 10) 2000 ≤ B) :
    ∀ (s : Nat) (spans : List (Nat × Nat)),
      GoodSpans content C B s spans →
      (∀ se ∈ spans, (pySlice content se.1 se.2).length ≤ C) ∧
        List.Forall₂ (overlapClause (min (C / 10) 2000))
          ((spans.map (fun se => pySlice content se.1 se.2)).zip
            (spans.map (fun se => pySlice content se.1 se.2)).tail)
          (overlapsOf content spans) ∧
        reconWith (spans.map (fun se => pySlice content se.1 se.2))
          (overlapsOf content spans) = content.drop s := by
  intro s spans h
  induction h with
  | last s e hs he hend =>
      have hcb := chunkEnd_bounds content C s
      rw [← he] at hcb
      refine ⟨?_, ?_, ?_⟩
      · intro se hse
        rw [List.mem_singleton] at hse
        subst hse
        rw [pySlice_length]
        dsimp only
        omega
      · exact List.Forall₂.nil
      · show pySlice content s e ++ reconTail [] [] = content.drop s
        rw [reconTail, List.append_nil]
        unfold pySlice
        rw [List.take_of_length_le (by rw [List.length_drop]; omega)]
  | cons s e rest hs he hlt hrest ih =>
      obtain ⟨tl, htl⟩ := goodSpans_head hrest
      have hcb := chunkEnd_bounds content C s
      rw [← he] at hcb
      have hcb' := chunkEnd_bounds content C (e - B)
      subst htl
      refine ⟨?_, ?_, ?_⟩
      · intro se hse
        rcases List.mem_cons.mp hse with hse | hse
        · subst hse
          rw [pySlice_length]
          dsimp only
          omega
        · exact ih.1 se hse
      · refine List.Forall₂.cons ?_ ih.2.1
        refine ⟨?_, ?_, ?_, ?_⟩
        · rw [pySlice_length]
          dsimp only
          omega
        · rw [pySlice_length]
          dsimp only
          omega
        · dsimp only
          rw [pySlice_drop, pySlice_length]
          rw [pySlice_take content (e - B) (chunkEnd content C (e - B))
            (min e content.length - (e - B)) (by omega)]
          have h1 : s + (min (e - s) (content.length - s) -
              (min e content.length - (e - B))) = e - B := by omega
          have h2 : e - B + (min e content.length - (e - B)) =
              min e content.length := by omega
          rw [h1, h2, pySlice_clamp content (e - B) e]
        · rw [pySlice_length]
          dsimp only
          omega
      · have hihr := ih.2.2
        rw [List.map_cons, reconWith] at hihr
        show pySlice content s e ++
          reconTail (pySlice content (e - B) (chunkEnd content C (e - B)) ::
            List.map (fun se => pySlice content se.1 se.2) tl)
            ((min e content.length - (e - B)) ::
              overlapsOf content ((e - B, chunkEnd content C (e - B)) :: tl)) =
          content.drop s
        rw [reconTail]
        set c' := pySlice content (e - B) (chunkEnd content C (e - B)) with hc'
        set X := reconTail (List.map (fun se => pySlice content se.1 se.2) tl)
          (overlapsOf content ((e - B, chunkEnd content C (e - B)) :: tl)) with hX
        have ho : min e content.length - (e - B) ≤ c'.length := by
          rw [hc', pySlice_length]
          omega
        have hsplit : c'.take (min e content.length - (e - B)) ++
            (c'.drop (min e content.length - (e - B)) ++ X) =
            content.drop (e - B) := by
          rw [← List.append_assoc, List.take_append_drop]
          exact hihr
        have hXeq : c'.drop (min e content.length - (e - B)) ++ X =
            content.drop (min e content.length) := by
          have := congrArg
            (List.drop (c'.take (min e content.length - (e - B))).length) hsplit
          rw [List.drop_left] at this
          rw [this, List.length_take, min_eq_left ho, List.drop_drop]
          congr 1
          omega
        rw [hXeq]
        have hc : pySlice content s e =
            (content.drop s).take (min e content.length - s) := by
          rw [pySlice_clamp]
          unfold pySlice
          rfl
        rw [hc]
        have hd : content.drop (min e content.length) =
            (content.drop s).drop (min e content.length - s) := by
          rw [List.drop_drop]
          congr 1
          omega
        rw [hd, List.take_append_drop]

/-- C1 (amended): for `4002 ≤ maxChars` (in particular for every value of
`calculate_max_chars`) `chunk_text` succeeds, every chunk has length at
most `maxChars`, and there are overlap amounts, one per consecutive pair
of chunks, such that each amount is at most both chunk lengths, the
earlier chunk ends with exactly the text the later chunk starts with, the
amount is at least `min (min (maxChars / 10) 2000)` (length of the later
chunk) — the full `min (maxChars / 10) 2000` except when the final chunk
is truncated by the end of the text — and concatenating the chunks after
removing each later chunk's overlap prefix reconstructs the text. -/
theorem claimC1_amended (content : List Char) (C : Nat) (hC : 4002 ≤ C) :
    ∃ cs, chunk_text content C = some cs ∧
      (∀ c ∈ cs, c.length ≤ C) ∧
      ∃ os, List.Forall₂ (overlapClause (min (C / 10) 2000))
          (cs.zip cs.tail) os ∧
        reconWith cs os = content := by
  by_cases h : content.length ≤ C
  · refine ⟨[content], ?_, ?_, [], List.Forall₂.nil, ?_⟩
    · unfold chunk_text
      rw [if_pos h]
    · intro c hc
      rw [List.mem_singleton] at hc
      subst hc
      exact h
    · show content ++ reconTail [] [] = content
      rw [reconTail, List.append_nil]
  · push_neg at h
    have hB : max (C / 10) 2000 < C / 2 := overlap_lt_half C hC
    obtain ⟨spans, hrun, hgood⟩ := chunkSpansGo_spec content C
      (max (C / 10) 2000) hB (content.length + 1) 0 (by omega) (by omega)
    have hmain := goodSpans_chunks content C (max (C / 10) 2000) hB
      (le_trans (min_le_left _ _) (le_max_left _ _)) 0 spans hgood
    refine ⟨spans.map (fun se => pySlice content se.1 se.2), ?_, ?_,
      overlapsOf content spans, hmain.2.1, ?_⟩
    · unfold chunk_text
      rw [if_neg (by omega)]
      dsimp only
      rw [hrun]
      rfl
    · intro c hc
      rw [List.mem_map] at hc
      obtain ⟨se, hmem, rfl⟩ := hc
      exact hmain.1 se hmem
    · rw [hmain.2.2, List.drop_zero]

theorem claimC1_amended_witness :
    ∃ cs, chunk_text ['a'] 4002 = some cs ∧
      (∀ c ∈ cs, c.length ≤ 4002) ∧
      ∃ os, List.Forall₂ (overlapClause (min (4002 / 10) 2000))
          (cs.zip cs.tail) os ∧
        reconWith cs os = ['a'] :=
  claimC1_amended ['a'] 4002 (by norm_num)

theorem insByIdx_perm {α : Type} (x : Nat × α) :
    ∀ l : List (Nat × α), (insByIdx x l).Perm (x :: l) := by
  intro l
  induction l with
  | nil => simp [insByIdx]
  | cons y ys ih =>
      rw [insByIdx]
      by_cases h : x.1 ≤ y.1
      · rw [if_pos h]
      · rw [if_neg h]
        exact (ih.cons y).trans (List.Perm.swap x y ys)

theorem sortByIdx_perm {α : Type} : ∀ l : List (Nat × α), (sortByIdx l).Perm l := by
  intro l
  induction l with
  | nil => exact List.Perm.refl _
  | cons x xs ih =>
      show (insByIdx x (sortByIdx xs)).Perm (x :: xs)
      exact (insByIdx_perm x (sortByIdx xs)).trans (ih.cons x)

theorem insByIdx_sorted {α : Type} (x : Nat × α) :
    ∀ l : List (Nat × α), l.Pairwise (fun a b => a.1 ≤ b.1) →
      (insByIdx x l).Pairwise (fun a b => a.1 ≤ b.1) := by
  intro l
  induction l with
  | nil => intro _; simp [insByIdx]
  | cons y ys ih =>
      intro hp
      rw [List.pairwise_cons] at hp
      rw [insByIdx]
      by_cases h : x.1 ≤ y.1
      · rw [if_pos h, List.pairwise_cons]
        constructor
        · intro z hz
          rcases List.mem_cons.mp hz with rfl | hz
          · exact h
          · exact le_trans h (hp.1 z hz)
        · exact List.pairwise_cons.mpr hp
      · rw [if_neg h, List.pairwise_cons]
        refine ⟨?_, ih hp.2⟩
        intro z hz
        have hz2 := (insByIdx_perm x ys).mem_iff.mp hz
        rcases List.mem_cons.mp hz2 with rfl | hz'
        · omega
        · exact hp.1 z hz'

theorem sortByIdx_sorted {α : Type} : ∀ l : List (Nat × α),
    (sortByIdx l).Pairwise (fun a b => a.1 ≤ b.1) := by
  intro l
  induction l with
  | nil => simp [sortByIdx]
  | cons x xs ih =>
      show (insByIdx x (sortByIdx xs)).Pairwise _
      exact insByIdx_sorted x (sortByIdx xs) ih

theorem eq_of_perm_sorted {α : Type} :
    ∀ (l₁ l₂ : List (Nat × α)), l₁.Perm l₂ →
      l₁.Pairwise (fun a b => a.1 < b.1) →
      l₂.Pairwise (fun a b => a.1 ≤ b.1) →
      l₂ = l₁ := by
  intro l₁
  induction l₁ with
  | nil =>
      intro l₂ hp _ _
      exact hp.nil_eq.symm
  | cons x xs ih =>
      intro l₂ hp h1 h2
      cases l₂ with
      | nil =>
          have := hp.length_eq
          simp at this
      | cons y ys =>
          rw [List.pairwise_cons] at h1 h2
          have hxy : x = y := by
            have hy : y ∈ x :: xs := hp.mem_iff.mpr (List.mem_cons_self y ys)
            rcases List.mem_cons.mp hy with h | hymem
            · exact h.symm
            · have hx : x ∈ y :: ys := hp.mem_iff.mp (List.mem_cons_self x xs)
              rcases List.mem_cons.mp hx with h | hxmem
              · exact h
              · have hlt := h1.1 y hymem
                have hle := h2.1 x hxmem
                omega
          subst hxy
          have htl : ys = xs := ih ys hp.cons_inv h1.2 h2.2
          rw [htl]

theorem extractPhase1_cons_pos (i : Nat) (d : ParsedDocument)
    (rest : List (Nat × ParsedDocument))
    (h : startsWithB errSentinel d.content = true) :
    extractPhase1 ((i, d) :: rest) =
      ((i, (d, errDocResult d, zeroUsage)) :: (extractPhase1 rest).1,
       ExtractEvent.errored i d.filename (String.mk (d.content.take 200)) ::
         (extractPhase1 rest).2.1,
       (extractPhase1 rest).2.2) := by
  rcases hrec : extractPhase1 rest with ⟨res, evs, ex⟩
  rw [extractPhase1, hrec]
  dsimp only
  rw [if_pos h]

theorem extractPhase1_cons_neg (i : Nat) (d : ParsedDocument)
    (rest : List (Nat × ParsedDocument))
    (h : startsWithB errSentinel d.content = false) :
    extractPhase1 ((i, d) :: rest) =
      ((extractPhase1 rest).1, (extractPhase1 rest).2.1,
       (i, d) :: (extractPhase1 rest).2.2) := by
  rcases hrec : extractPhase1 rest with ⟨res, evs, ex⟩
  rw [extractPhase1, hrec]
  dsimp only
  rw [if_neg (by rw [h]; exact Bool.false_ne_true)]

theorem extractPhase2_cons (attemptO : ParsedDocument → Except String (PyDict × Usage))
    (i : Nat) (d : ParsedDocument) (rest : List (Nat × ParsedDocument)) :
    extractPhase2 attemptO ((i, d) :: rest) =
      ((i, (d, (extract_document attemptO d).1, (extract_document attemptO d).2)) ::
         (extractPhase2 attemptO rest).1,
       ExtractEvent.started i d.filename ::
         ((if hasFailureNote (extract_document attemptO d).1 then
             [ExtractEvent.errored i d.filename
               (firstNote (extract_document attemptO d).1)]
           else
             [ExtractEvent.completed i d.filename
               (extract_document attemptO d).2]) ++
           (extractPhase2 attemptO rest).2)) := by
  rcases hrec : extractPhase2 attemptO rest with ⟨res, evs⟩
  rw [extractPhase2, hrec]
  dsimp only
  rw [List.cons_append]

theorem phase_split_perm (attemptO : ParsedDocument → Except String (PyDict × Usage)) :
    ∀ l : List (Nat × ParsedDocument),
      ((extractPhase1 l).1 ++
        (extractPhase2 attemptO (extractPhase1 l).2.2).1).Perm
        (l.map (fun id => (id.1, docOutcome attemptO id.2))) := by
  intro l
  induction l with
  | nil => simp [extractPhase1, extractPhase2]
  | cons p rest ih =>
      obtain ⟨i, d⟩ := p
      by_cases h : startsWithB errSentinel d.content
      · rw [extractPhase1_cons_pos i d rest h]
        dsimp only
        rw [List.map_cons, List.cons_append]
        have hout : docOutcome attemptO d = (d, errDocResult d, zeroUsage) := by
          unfold docOutcome
          rw [if_pos h]
        dsimp only
        rw [hout]
        exact ih.cons _
      · rw [Bool.not_eq_true] at h
        rw [extractPhase1_cons_neg i d rest h]
        dsimp only
        rw [extractPhase2_cons attemptO i d ((extractPhase1 rest).2.2)]
        dsimp only
        rw [List.map_cons]
        have hout : docOutcome attemptO d =
            (d, (extract_document attemptO d).1, (extract_document attemptO d).2) := by
          unfold docOutcome
          rw [h]
          rfl
        dsimp only
        rw [hout]
        exact List.perm_middle.trans (ih.cons _)

theorem enumOutcome_pairwise (docs : List ParsedDocument)
    (attemptO : ParsedDocument → Except String (PyDict × Usage)) :
    (docs.enum.map (fun id => (id.1, docOutcome attemptO id.2))).Pairwise
      (fun a b => a.1 < b.1) := by
  rw [List.pairwise_map]
  have h : List.Pairwise (fun a b : Nat × ParsedDocument => a.1 < b.1) docs.enum := by
    have hr := List.pairwise_lt_range docs.length
    rw [← List.enum_map_fst docs] at hr
    exact List.pairwise_map.mp hr
  exact h

theorem extract_all_results (docs : List ParsedDocument)
    (attemptO : ParsedDocument → Except String (PyDict × Usage)) :
    (extract_all docs attemptO).1 = docs.map (docOutcome attemptO) := by
  cases docs with
  | nil => rfl
  | cons d0 drest =>
      rcases h1 : extractPhase1 (d0 :: drest).enum with ⟨res1, evs1, ex⟩
      rcases h2 : extractPhase2 attemptO ex with ⟨res2, evs2⟩
      have hval : extract_all (d0 :: drest) attemptO =
          ((sortByIdx (res1 ++ res2)).map Prod.snd, evs1 ++ evs2) := by
        rw [extract_all, h1]
        dsimp only
        rw [h2]
        simp
      rw [hval]
      dsimp only
      have hperm := phase_split_perm attemptO (d0 :: drest).enum
      rw [h1] at hperm
      dsimp only at hperm
      rw [h2] at hperm
      dsimp only at hperm
      have hsort : sortByIdx (res1 ++ res2) =
          (d0 :: drest).enum.map (fun id => (id.1, docOutcome attemptO id.2)) :=
        eq_of_perm_sorted _ _
          (hperm.symm.trans (sortByIdx_perm (res1 ++ res2)).symm)
          (enumOutcome_pairwise (d0 :: drest) attemptO)
          (sortByIdx_sorted (res1 ++ res2))
      rw [hsort, List.map_map]
      have hcomp : (Prod.snd ∘ fun id : Nat × ParsedDocument =>
          (id.1, docOutcome attemptO id.2)) = (docOutcome attemptO) ∘ Prod.snd := rfl
      rw [hcomp, ← List.map_map, List.enum_map_snd]

theorem mem_evs1_elim (l : List (Nat × ParsedDocument)) (ev : ExtractEvent) :
    ev ∈ (extractPhase1 l).2.1 →
      ∃ i d, (i, d) ∈ l ∧ startsWithB errSentinel d.content = true ∧
        ev = ExtractEvent.errored i d.filename (String.mk (d.content.take 200)) := by
  induction l with
  | nil => intro h; simp [extractPhase1] at h
  | cons p rest ih =>
      obtain ⟨i, d⟩ := p
      by_cases h : startsWithB errSentinel d.content
      · rw [extractPhase1_cons_pos i d rest h]
        dsimp only
        intro hm
        rcases List.mem_cons.mp hm with heq | hm
        · exact ⟨i, d, List.mem_cons_self _ _, h, heq⟩
        · obtain ⟨j, d', hmem, hs, he⟩ := ih hm
          exact ⟨j, d', List.mem_cons_of_mem _ hmem, hs, he⟩
      · rw [Bool.not_eq_true] at h
        rw [extractPhase1_cons_neg i d rest h]
        dsimp only
        intro hm
        obtain ⟨j, d', hmem, hs, he⟩ := ih hm
        exact ⟨j, d', List.mem_cons_of_mem _ hmem, hs, he⟩

theorem mem_extractable_intro (l : List (Nat × ParsedDocument)) (i : Nat)
    (d : ParsedDocument) :
    (i, d) ∈ l → startsWithB errSentinel d.content = false →
      (i, d) ∈ (extractPhase1 l).2.2 := by
  induction l with
  | nil => intro h; simp at h
  | cons p rest ih =>
      obtain ⟨j, d'⟩ := p
      intro hm hs
      rcases List.mem_cons.mp hm with heq | hm
      · obtain ⟨rfl, rfl⟩ := Prod.mk.injEq .. ▸ And.intro (congrArg Prod.fst heq) (congrArg Prod.snd heq)
        rw [extractPhase1_cons_neg i d rest hs]
        exact List.mem_cons_self _ _
      · by_cases h : startsWithB errSentinel d'.content
        · rw [extractPhase1_cons_pos j d' rest h]
          exact ih hm hs
        · rw [Bool.not_eq_true] at h
          rw [extractPhase1_cons_neg j d' rest h]
          exact List.mem_cons_of_mem _ (ih hm hs)

theorem mem_extractable_elim (l : List (Nat × ParsedDocument))
    (p : Nat × ParsedDocument) :
    p ∈ (extractPhase1 l).2.2 → p ∈ l := by
  induction l with
  | nil => intro h; simp [extractPhase1] at h
  | cons q rest ih =>
      obtain ⟨j, d'⟩ := q
      by_cases h : startsWithB errSentinel d'.content
      · rw [extractPhase1_cons_pos j d' rest h]
        dsimp only
        intro hm
        exact List.mem_cons_of_mem _ (ih hm)
      · rw [Bool.not_eq_true] at h
        rw [extractPhase1_cons_neg j d' rest h]
        dsimp only
        intro hm
        rcases List.mem_cons.mp hm with heq | hm
        · rw [heq]; exact List.mem_cons_self _ _
        · exact List.mem_cons_of_mem _ (ih hm)

theorem mem_evs2_intro (attemptO : ParsedDocument → Except String (PyDict × Usage))
    (l : List (Nat × ParsedDocument)) (i : Nat) (d : ParsedDocument) :
    (i, d) ∈ l → hasFailureNote (extract_document attemptO d).1 = true →
      ExtractEvent.errored i d.filename
          (firstNote (extract_document attemptO d).1) ∈
        (extractPhase2 attemptO l).2 := by
  induction l with
  | nil => intro h; simp at h
  | cons p rest ih =>
      obtain ⟨j, d'⟩ := p
      intro hm hf
      rw [extractPhase2_cons attemptO j d' rest]
      dsimp only
      rcases List.mem_cons.mp hm with heq | hm
      · obtain ⟨rfl, rfl⟩ := Prod.mk.injEq .. ▸ And.intro (congrArg Prod.fst heq) (congrArg Prod.snd heq)
        refine List.mem_cons_of_mem _ (List.mem_append_left _ ?_)
        rw [if_pos hf]
        exact List.mem_singleton.mpr rfl
      · exact List.mem_cons_of_mem _ (List.mem_append_right _ (ih hm hf))

theorem mem_evs2_elim (attemptO : ParsedDocument → Except String (PyDict × Usage))
    (l : List (Nat × ParsedDocument)) (ev : ExtractEvent) :
    ev ∈ (extractPhase2 attemptO l).2 →
      ∃ i d, (i, d) ∈ l ∧
        (ev = ExtractEvent.started i d.filename ∨
          (hasFailureNote (extract_document attemptO d).1 = true ∧
            ev = ExtractEvent.errored i d.filename
              (firstNote (extract_document attemptO d).1)) ∨
          (hasFailureNote (extract_document attemptO d).1 = false ∧
            ev = ExtractEvent.completed i d.filename
              (extract_document attemptO d).2)) := by
  induction l with
  | nil => intro h; simp [extractPhase2] at h
  | cons p rest ih =>
      obtain ⟨j, d'⟩ := p
      rw [extractPhase2_cons attemptO j d' rest]
      dsimp only
      intro hm
      rcases List.mem_cons.mp hm with heq | hm
      · exact ⟨j, d', List.mem_cons_self _ _, Or.inl heq⟩
      rcases List.mem_append.mp hm with hm | hm
      · by_cases hf : hasFailureNote (extract_document attemptO d').1
        · rw [if_pos hf] at hm
          exact ⟨j, d', List.mem_cons_self _ _,
            Or.inr (Or.inl ⟨hf, List.mem_singleton.mp hm⟩)⟩
        · rw [Bool.not_eq_true] at hf
          rw [hf] at hm
          simp only [Bool.false_eq_true, if_false] at hm
          exact ⟨j, d', List.mem_cons_self _ _,
            Or.inr (Or.inr ⟨hf, List.mem_singleton.mp hm⟩)⟩
      · obtain ⟨i, d, hmem, hcase⟩ := ih hm
        exact ⟨i, d, List.mem_cons_of_mem _ hmem, hcase⟩

theorem prefixAtB_prefix (p r : List Char) : prefixAtB p (p ++ r) = true := by
  simp [prefixAtB, List.take_left]

theorem hasFailureNote_fail (e : String) :
    hasFailureNote (pyDictSet emptyER ("confidence_notes")
      (PyVal.list [PyVal.str (("Extraction failed: ") ++ e)])) = true := by
  unfold hasFailureNote
  rw [pyGet_pyDictSet_self]
  show List.any _ _ = true
  rw [List.any_cons, List.any_nil, Bool.or_false]
  show startsWithB (("Extraction failed:").data) ((("Extraction failed: ") ++ e).data) = true
  have hdata : (("Extraction failed: ") ++ e).data =
      ("Extraction failed:").data ++ (' ' :: e.data) := by
    rw [String.data_append]
    rw [show ("Extraction failed: ").data = ("Extraction failed:").data ++ [' ']
      from by decide]
    rw [List.append_assoc]
    rfl
  unfold startsWithB
  rw [hdata]
  exact prefixAtB_prefix _ _

theorem firstNote_fail (e : String) :
    firstNote (pyDictSet emptyER ("confidence_notes")
      (PyVal.list [PyVal.str (("Extraction failed: ") ++ e)])) =
      ("Extraction failed: ") ++ e := by
  unfold firstNote
  rw [pyGet_pyDictSet_self]

theorem extract_document_err
    (attemptO : ParsedDocument → Except String (PyDict × Usage))
    (d : ParsedDocument) (e : String) (h : attemptO d = Except.error e) :
    extract_document attemptO d =
      (pyDictSet emptyER ("confidence_notes")
        (PyVal.list [PyVal.str (("Extraction failed: ") ++ e)]), zeroUsage) := by
  unfold extract_document
  rw [h]

theorem extract_all_events (d0 : ParsedDocument) (drest : List ParsedDocument)
    (attemptO : ParsedDocument → Except String (PyDict × Usage)) :
    (extract_all (d0 :: drest) attemptO).2 =
      (extractPhase1 (d0 :: drest).enum).2.1 ++
        (extractPhase2 attemptO (extractPhase1 (d0 :: drest).enum).2.2).2 := by
  rcases h1 : extractPhase1 (d0 :: drest).enum with ⟨res1, evs1, ex⟩
  rcases h2 : extractPhase2 attemptO ex with ⟨res2, evs2⟩
  rw [extract_all, h1]
  dsimp only
  rw [h2]
  simp

/-- C6: an individual extraction failure does not abort the extract stage:
`extract_all` returns exactly one `(document, result, usage)` tuple per
input document in input order; a non-sentinel document whose extraction
body raises `e` yields the empty record with `Extraction failed: e`
appended to `confidence_notes` and zero usage, the `on_error` callback
fires for it with that message, and `on_completed` never fires for its
index. -/
theorem claimC6 (docs : List ParsedDocument)
    (attemptO : ParsedDocument → Except String (PyDict × Usage)) :
    (extract_all docs attemptO).1.map Prod.fst = docs ∧
    (extract_all docs attemptO).1.length = docs.length ∧
    ∀ i d e, docs[i]? = some d →
      startsWithB errSentinel d.content = false →
      attemptO d = Except.error e →
      (extract_all docs attemptO).1[i]? =
        some (d, pyDictSet emptyER ("confidence_notes")
          (PyVal.list [PyVal.str (("Extraction failed: ") ++ e)]), zeroUsage) ∧
      ExtractEvent.errored i d.filename (("Extraction failed: ") ++ e) ∈
        (extract_all docs attemptO).2 ∧
      ∀ (f : String) (u : Usage),
        ExtractEvent.completed i f u ∉ (extract_all docs attemptO).2 := by
  refine ⟨?_, ?_, ?_⟩
  · rw [extract_all_results, List.map_map]
    have hco : (Prod.fst ∘ docOutcome attemptO) = id := by
      funext d
      unfold docOutcome
      dsimp only [Function.comp]
      by_cases h : startsWithB errSentinel d.content
      · rw [if_pos h]; rfl
      · rw [if_neg h]; rfl
    rw [hco, List.map_id]
  · rw [extract_all_results, List.length_map]
  · intro i d e hget hsent herr
    cases docs with
    | nil => simp at hget
    | cons d0 drest =>
        have hev := extract_all_events d0 drest attemptO
        refine ⟨?_, ?_, ?_⟩
        · rw [extract_all_results, List.getElem?_map, hget]
          show some (docOutcome attemptO d) = _
          unfold docOutcome
          rw [hsent]
          rw [if_neg (by simp)]
          rw [extract_document_err attemptO d e herr]
        · rw [hev]
          apply List.mem_append_right
          have hmem : (i, d) ∈ (d0 :: drest).enum :=
            List.mk_mem_enum_iff_getElem?.mpr hget
          have hex := mem_extractable_intro _ i d hmem hsent
          have h2 := mem_evs2_intro attemptO _ i d hex
            (by rw [extract_document_err attemptO d e herr]
                exact hasFailureNote_fail e)
          rw [extract_document_err attemptO d e herr] at h2
          dsimp only at h2
          rw [firstNote_fail] at h2
          exact h2
        · intro f u hmem
          rw [hev] at hmem
          rcases List.mem_append.mp hmem with hm | hm
          · obtain ⟨j, d', -, -, heq⟩ := mem_evs1_elim _ _ hm
            exact ExtractEvent.noConfusion heq
          · obtain ⟨j, d', hjd, hcase⟩ := mem_evs2_elim attemptO _ _ hm
            have hjl : (j, d') ∈ (d0 :: drest).enum := mem_extractable_elim _ _ hjd
            rcases hcase with heq | ⟨-, heq⟩ | ⟨hff, heq⟩
            · exact ExtractEvent.noConfusion heq
            · exact ExtractEvent.noConfusion heq
            · injection heq with hij hf hu
              subst hij
              have hd' : (d0 :: drest)[i]? = some d' :=
                List.mk_mem_enum_iff_getElem?.mp hjl
              rw [hget] at hd'
              injection hd' with hd'
              subst hd'
              rw [extract_document_err attemptO d e herr] at hff
              dsimp only at hff
              rw [hasFailureNote_fail] at hff
              exact Bool.noConfusion hff

theorem claimC6_witness :
    (extract_all [cDoc] (fun _ => Except.error ("boom"))).1[0]? =
      some (cDoc, pyDictSet emptyER ("confidence_notes")
        (PyVal.list [PyVal.str (("Extraction failed: ") ++ ("boom"))]), zeroUsage) ∧
    ExtractEvent.errored 0 cDoc.filename (("Extraction failed: ") ++ ("boom")) ∈
      (extract_all [cDoc] (fun _ => Except.error ("boom"))).2 ∧
    ∀ (f : String) (u : Usage), ExtractEvent.completed 0 f u ∉
      (extract_all [cDoc] (fun _ => Except.error ("boom"))).2 :=
  (claimC6 [cDoc] (fun _ => Except.error ("boom"))).2.2 0 cDoc ("boom")
    (by rfl) (by decide) (by rfl)

theorem scanGo_esc (c : Char) (rest : List Char) (d : Int) (b : Bool) (i : Nat) :
    scanGo (c :: rest) ⟨d, b, true⟩ i = scanGo rest ⟨d, b, false⟩ (i + 1) := by
  rw [scanGo]
  dsimp only
  rw [if_pos rfl]

theorem scanGo_bs (rest : List Char) (d : Int) (b : Bool) (i : Nat) :
    scanGo ('\\' :: rest) ⟨d, b, false⟩ i = scanGo rest ⟨d, b, true⟩ (i + 1) := by
  rw [scanGo]
  dsimp only
  rw [if_neg Bool.false_ne_true, if_pos rfl]

theorem scanGo_quote (rest : List Char) (d : Int) (b : Bool) (i : Nat) :
    scanGo ('"' :: rest) ⟨d, b, false⟩ i = scanGo rest ⟨d, !b, false⟩ (i + 1) := by
  rw [scanGo]
  dsimp only
  rw [if_neg Bool.false_ne_true, if_neg (by decide), if_pos rfl]

theorem scanGo_instr (c : Char) (hq : c ≠ '"') (hb : c ≠ '\\')
    (rest : List Char) (d : Int) (i : Nat) :
    scanGo (c :: rest) ⟨d, true, false⟩ i =
      scanGo rest ⟨d, true, false⟩ (i + 1) := by
  rw [scanGo]
  dsimp only
  rw [if_neg Bool.false_ne_true, if_neg hb, if_neg hq, if_pos rfl]

theorem scanGo_safe (c : Char) (hq : c ≠ '"') (hb : c ≠ '\\') (ho : c ≠ '{')
    (hc : c ≠ '}') (rest : List Char) (d : Int) (i : Nat) :
    scanGo (c :: rest) ⟨d, false, false⟩ i =
      scanGo rest ⟨d, false, false⟩ (i + 1) := by
  rw [scanGo]
  dsimp only
  rw [if_neg Bool.false_ne_true, if_neg hb, if_neg hq,
    if_neg Bool.false_ne_true, if_neg ho, if_neg hc]

theorem scanGo_open (rest : List Char) (d : Int) (i : Nat) :
    scanGo ('{' :: rest) ⟨d, false, false⟩ i =
      scanGo rest ⟨d + 1, false, false⟩ (i + 1) := by
  rw [scanGo]
  dsimp only
  rw [if_neg Bool.false_ne_true, if_neg (by decide), if_neg (by decide),
    if_neg Bool.false_ne_true, if_pos rfl]

theorem scanGo_close_cont (rest : List Char) (d : Int) (hd : d ≠ 1) (i : Nat) :
    scanGo ('}' :: rest) ⟨d, false, false⟩ i =
      scanGo rest ⟨d - 1, false, false⟩ (i + 1) := by
  rw [scanGo]
  dsimp only
  rw [if_neg Bool.false_ne_true, if_neg (by decide), if_neg (by decide),
    if_neg Bool.false_ne_true, if_neg (by decide), if_pos rfl, if_neg (by omega)]

theorem scanGo_close_stop (rest : List Char) (i : Nat) :
    scanGo ('}' :: rest) ⟨1, false, false⟩ i = Sum.inr i := by
  rw [scanGo]
  dsimp only
  rw [if_neg Bool.false_ne_true, if_neg (by decide), if_neg (by decide),
    if_neg Bool.false_ne_true, if_neg (by decide), if_pos rfl, if_pos (by norm_num)]

theorem scan_inner (s : List Char) (hs : JInner s) :
    ∀ (rest : List Char) (d : Int) (i : Nat),
      scanGo (s ++ rest) ⟨d, true, false⟩ i =
        scanGo rest ⟨d, true, false⟩ (i + s.length) := by
  induction hs with
  | nil =>
      intro rest d i
      rw [List.nil_append, List.length_nil]
      rfl
  | chr c l hq hb _ ih =>
      intro rest d i
      rw [List.cons_append, scanGo_instr c hq hb, ih, List.length_cons]
      congr 1
      omega
  | esc c l _ ih =>
      intro rest d i
      rw [List.cons_append, List.cons_append, scanGo_bs, scanGo_esc, ih,
        List.length_cons, List.length_cons]
      congr 1
      omega

theorem scan_neutral (s : List Char) (hs : Neutral s) :
    ∀ (rest : List Char) (d : Int), 1 ≤ d → ∀ (i : Nat),
      scanGo (s ++ rest) ⟨d, false, false⟩ i =
        scanGo rest ⟨d, false, false⟩ (i + s.length) := by
  induction hs with
  | nil =>
      intro rest d _ i
      rw [List.nil_append, List.length_nil]
      rfl
  | safe c l ho hc hq hb _ ih =>
      intro rest d hd i
      rw [List.cons_append, scanGo_safe c hq hb ho hc, ih rest d hd,
        List.length_cons]
      congr 1
      omega
  | str s l hji _ ihl =>
      intro rest d hd i
      rw [List.cons_append, List.append_assoc, List.cons_append, scanGo_quote]
      rw [show (!false) = true from rfl]
      rw [scan_inner s hji, scanGo_quote]
      rw [show (!true) = false from rfl]
      rw [ihl rest d hd]
      rw [List.length_cons, List.length_append, List.length_cons]
      congr 1
      omega
  | obj inner l _ _ ihi ihl =>
      intro rest d hd i
      rw [List.cons_append, List.append_assoc, List.cons_append, scanGo_open]
      rw [ihi ('}' :: (l ++ rest)) (d + 1) (by omega)]
      rw [scanGo_close_cont _ (d + 1) (by omega)]
      rw [show d + 1 - 1 = d from by omega]
      rw [ihl rest d hd]
      rw [List.length_cons, List.length_append, List.length_cons]
      congr 1
      omega

theorem pyStrip_obj (m : List Char) :
    pyStrip ('{' :: (m ++ ['}'])) = '{' :: (m ++ ['}']) := by
  unfold pyStrip
  rw [List.dropWhile_cons, if_neg (by decide)]
  have hrev : ('{' :: (m ++ ['}'])).reverse = '}' :: (m.reverse ++ ['{']) := by
    rw [List.reverse_cons, List.reverse_append]
    rfl
  rw [hrev, List.dropWhile_cons, if_neg (by decide), ← hrev, List.reverse_reverse]

theorem stripFences_obj (m : List Char) :
    stripFences ('{' :: (m ++ ['}'])) = '{' :: (m ++ ['}']) := by
  have hfence : startsWithB fencePat ('{' :: (m ++ ['}'])) = false := by
    unfold startsWithB prefixAtB
    rw [decide_eq_false_iff_not]
    intro h
    rw [show ('{' :: (m ++ ['}'])).take fencePat.length =
      '{' :: (m ++ ['}']).take 2 from rfl] at h
    injection h with h1
    exact absurd h1 (by decide)
  unfold stripFences
  rw [if_neg (by rw [hfence]; exact Bool.false_ne_true)]

theorem pyFind_obj (m : List Char) :
    pyFind ('{' :: (m ++ ['}'])) ['{'] = some 0 := by
  unfold pyFind
  rw [findGo, if_pos (by rw [show prefixAtB ['{'] ('{' :: (m ++ ['}'])) =
    decide (('{' :: (m ++ ['}'])).take 1 = ['{']) from rfl]; simp)]

/-- C7: `_extract_json` returns an already-valid bare JSON object
unchanged.  `JsonObj` generates a superset of the serialized JSON objects
with no surrounding text: a `\x7b`, a body made of arbitrary
scanner-neutral characters, well-formed quoted strings (with backslash
escapes) and nested balanced objects, and the matching closing `\x7d`. -/
theorem claimC7 (s : List Char) (h : JsonObj s) : _extract_json s = s := by
  obtain ⟨inner, hn, rfl⟩ := h
  unfold _extract_json
  rw [pyStrip_obj, stripFences_obj]
  dsimp only
  rw [pyFind_obj]
  dsimp only
  rw [List.drop_zero]
  have hscan : scanGo ('{' :: (inner ++ ['}'])) ⟨0, false, false⟩ 0 =
      Sum.inr (1 + inner.length) := by
    rw [show ('{' :: (inner ++ ['}'])) = '{' :: (inner ++ ('}' :: [])) from rfl,
      scanGo_open]
    rw [show (0 : Int) + 1 = 1 from rfl]
    rw [scan_neutral inner hn ('}' :: []) 1 (by norm_num) 1]
    rw [scanGo_close_stop]
  rw [hscan]
  dsimp only
  unfold pySlice
  rw [List.drop_zero]
  have hlen : ('{' :: (inner ++ ['}'])).length ≤ 1 + inner.length + 1 - 0 := by
    rw [List.length_cons, List.length_append, List.length_singleton]
    omega
  rw [List.take_of_length_le hlen]

theorem claimC7_witness :
    _extract_json ['{', '"', 'a', '"', ':', '1', '}'] =
      ['{', '"', 'a', '"', ':', '1', '}'] :=
  claimC7 ['{', '"', 'a', '"', ':', '1', '}']
    ⟨['"', 'a', '"', ':', '1'],
      Neutral.str ['a'] [':', '1']
        (JInner.chr 'a' [] (by decide) (by decide) JInner.nil)
        (Neutral.safe ':' ['1'] (by decide) (by decide) (by decide) (by decide)
          (Neutral.safe '1' [] (by decide) (by decide) (by decide) (by decide)
            Neutral.nil)),
      rfl⟩

end ProcAnalyzer
